import Mathlib

/-!
Verification of the origami batch contour/line reconciliation engine
(`origami/batch/core/lines.py`, `origami/batch/detect/lines.py`).

Python dicts are modelled as association lists with Python's update
semantics (assignment to an existing key replaces the value in place,
assignment to a fresh key appends at the end; lookup finds the unique
entry).  Region paths `(predictor, class, block_id)` are modelled as
`String × String × ℕ`: the code's block ids are canonical decimal
numerals produced from ints upstream, so the code's `int(k[2])` in
`reliable_contours` and the tuple equality used elsewhere agree under
this identification.  Line paths add a trailing numeric line id.

Geometry values (shapely objects) are opaque to all of the code under
verification except through the five operations the code invokes:
`shapely.ops.cascaded_union`, `.convex_hull`, `.intersection`,
`.geom_type` and `.is_empty`.  We therefore parameterise the embedding
over a `GeomOps` record providing these operations; concrete theorems
instantiate it with small models whose point-set semantics (`pts`
functions into `Set (ℚ × ℚ)`) are spelled out definitionally.
-/

namespace Origami

/-- Python dict as an association list: lookup of the first (unique) match. -/
def dget? {K V : Type} [DecidableEq K] : List (K × V) → K → Option V
  | [], _ => none
  | kv :: rest, k => if kv.1 = k then some kv.2 else dget? rest k

/-- Python dict assignment: replace in place if the key exists, else append. -/
def dset {K V : Type} [DecidableEq K] : List (K × V) → K → V → List (K × V)
  | [], k, v => [(k, v)]
  | kv :: rest, k, v => if kv.1 = k then (k, v) :: rest else kv :: dset rest k v

/-- The keys of a dict, in insertion order. -/
def dkeys {K V : Type} (d : List (K × V)) : List K := d.map Prod.fst

/-- A region path `(predictor, class, block_id)`. -/
abbrev RPath : Type := String × String × ℕ

/-- A line path `(predictor, class, block_id, line_id)`. -/
abbrev LPath : Type := String × String × ℕ × ℕ

/-- The `path[:2]` prefix of a region path. -/
def pfx2 (p : RPath) : String × String := (p.1, p.2.1)

/-- The `path[:3]` prefix of a line path. -/
def pfx3 (p : LPath) : RPath := (p.1, p.2.1, p.2.2.1)

/-- A detected text line, as used by the code under verification:
its `image_space_polygon`, its `predicted_path` (a predictor/class
pair), its `predicted_path_error` method (a function of the queried
predictor/class pair, computed by the out-of-scope detector), and its
`confidence`. -/
structure Line (G : Type) where
  polygon : G
  predictedPath : String × String
  pathError : String × String → ℚ
  confidence : ℚ

/-- The five shapely operations invoked by the code under verification.
`union` is `shapely.ops.cascaded_union` on a list of geometries. -/
structure GeomOps (G : Type) where
  union : List G → G
  convexHull : G → G
  intersection : G → G → G
  geomType : G → String
  isEmpty : G → Bool

/-- From `core/lines.py` lines 21-23: maximal existing trailing id per
2-prefix among the predicted-contour paths (`defaultdict(int)`, so `0`
if none). -/
def miStep {G : Type} (mi : (String × String) → ℕ) (kv : RPath × G) :
    (String × String) → ℕ :=
  fun p => if p = pfx2 kv.1 then max (mi p) kv.1.2.2 else mi p

def rcMaxIds {G : Type} (all_contours : List (RPath × G)) :
    (String × String) → ℕ :=
  all_contours.foldl miStep (fun _ => 0)

/-- State threaded through the freed-lines loop of `reliable_contours`:
the `max_ids` counters, the `reliable` dict under construction and the
(mutated) `detected_lines` dict. -/
structure RCState (G : Type) where
  mi : (String × String) → ℕ
  rel : List (RPath × G)
  det : List (LPath × Line G)

/-- One iteration of the freed-lines loop (`core/lines.py` lines 25-30). -/
def freeStep {G : Type} (st : RCState G)
    (fl : (String × String) × Line G) : RCState G :=
  let new_id := st.mi fl.1 + 1
  { mi := fun p => if p = fl.1 then new_id else st.mi p,
    rel := dset st.rel (fl.1.1, fl.1.2, new_id) fl.2.polygon,
    det := dset st.det (fl.1.1, fl.1.2, new_id, 0) fl.2 }

/-- The freed-lines loop of `reliable_contours`. -/
def freeLoop {G : Type} (st : RCState G)
    (free_lines : List ((String × String) × Line G)) : RCState G :=
  free_lines.foldl freeStep st

/-- From `core/lines.py` lines 32-34: group `all_lines` by the `path[:3]`
block prefix (`defaultdict(list)` with append). -/
def rcGroup {G : Type} (all_lines : List (LPath × Line G)) :
    List (RPath × List (Line G)) :=
  all_lines.foldl
    (fun d kv =>
      dset d (pfx3 kv.1) ((dget? d (pfx3 kv.1)).getD [] ++ [kv.2]))
    []

/-- The guard `if ignore is None or not ignore(path)` (`core/lines.py` line 37). -/
def ignCheck (ignore : Option (RPath → Bool)) (p : RPath) : Bool :=
  match ignore with
  | none => true
  | some f => !(f p)

/-- From `core/lines.py` lines 38-42: union of the block's line polygons,
convex hull, intersection with the block's predicted contour, with the
convex-hull fallback when the result is not of geometry type Polygon. -/
def blockGeom {G : Type} (ops : GeomOps G) (c : G) (lines : List (Line G)) : G :=
  let hull := ops.convexHull (ops.union (lines.map Line.polygon))
  let geom := ops.intersection hull c
  if ops.geomType geom ≠ "Polygon" then ops.convexHull geom else geom

/-- The block-lines loop of `reliable_contours` (`core/lines.py` lines
36-43).  The subscript `all_contours[path]` raises a `KeyError` when a
block path is missing, which we model with `Except`. -/
def rcBlockLoop {G : Type} (ops : GeomOps G) (all_contours : List (RPath × G))
    (ignore : Option (RPath → Bool)) (rel : List (RPath × G)) :
    List (RPath × List (Line G)) → Except String (List (RPath × G))
  | [] => Except.ok rel
  | (bp, lns) :: rest =>
    if ignCheck ignore bp then
      match dget? all_contours bp with
      | none => Except.error "KeyError"
      | some c => rcBlockLoop ops all_contours ignore
          (dset rel bp (blockGeom ops c lns)) rest
    else rcBlockLoop ops all_contours ignore rel rest

/-- From `core/lines.py` lines 47-48: copy through every predicted-contour
path not already present in `reliable`. -/
def rcCopy {G : Type} (rel : List (RPath × G)) (all_contours : List (RPath × G)) :
    List (RPath × G) :=
  all_contours.foldl
    (fun r kv => if (dget? r kv.1).isSome then r else dset r kv.1 kv.2) rel

/-- The builder `reliable_contours` (`core/lines.py` lines 18-50).  The function
mutates its `detected_lines` argument in place; we model this by
returning the updated mapping alongside `reliable`. -/
def reliable_contours {G : Type} (ops : GeomOps G)
    (all_contours : List (RPath × G)) (all_lines : List (LPath × Line G))
    (free_lines : List ((String × String) × Line G))
    (detected_lines : List (LPath × Line G))
    (ignore : Option (RPath → Bool)) :
    Except String (List (RPath × G) × List (LPath × Line G)) :=
  let st := freeLoop ⟨rcMaxIds all_contours, [], detected_lines⟩ free_lines
  match rcBlockLoop ops all_contours ignore st.rel (rcGroup all_lines) with
  | Except.error e => Except.error e
  | Except.ok rel2 => Except.ok (rcCopy rel2 all_contours, st.det)

/-- Lookup of one reliable contour in the builder's result. -/
def relLookup {G : Type} (ops : GeomOps G)
    (all_contours : List (RPath × G)) (all_lines : List (LPath × Line G))
    (free_lines : List ((String × String) × Line G))
    (detected_lines : List (LPath × Line G))
    (ignore : Option (RPath → Bool)) (k : RPath) : Except String (Option G) :=
  (reliable_contours ops all_contours all_lines free_lines detected_lines
    ignore).map (fun o => dget? o.1 k)

/-- Lookup of one detected line in the builder's mutated mapping. -/
def detLookup {G : Type} (ops : GeomOps G)
    (all_contours : List (RPath × G)) (all_lines : List (LPath × Line G))
    (free_lines : List ((String × String) × Line G))
    (detected_lines : List (LPath × Line G))
    (ignore : Option (RPath → Bool)) (k : LPath) :
    Except String (Option (Line G)) :=
  (reliable_contours ops all_contours all_lines free_lines detected_lines
    ignore).map (fun o => dget? o.2 k)

/-!
### The line reclassifier (`detect/lines.py`, `LineDetectionProcessor.process`)
-/

/-- The effective path-mismatch error of one line (`detect/lines.py`
lines 114-120): the raw `predicted_path_error` of the originating
block's predictor/class pair, forced to `0` when that pair is
`("regions", "TABULAR")` and the block has no registered entry in
`c_tables` (the split keys of `aggregate.tables["columns"]`). -/
def effError {G : Type} (c_tables : List RPath) (bp : RPath) (line : Line G) : ℚ :=
  let error := line.pathError (pfx2 bp)
  if pfx2 bp = ("regions", "TABULAR") ∧ ¬ (bp ∈ c_tables) then 0 else error

/-- One block of the reclassification loop (`detect/lines.py` lines
108-127): lines whose effective error exceeds the threshold are freed
(keyed by their own predicted path); the others are kept under the path
`(prediction_name, class_name, block_id, line_id)` where `line_id` is
the `enumerate` index. -/
def classifyLines {G : Type} (threshold : ℚ) (c_tables : List RPath)
    (bp : RPath) (line_id : ℕ)
    (acc : List (LPath × Line G) × List ((String × String) × Line G)) :
    List (Line G) →
      List (LPath × Line G) × List ((String × String) × Line G)
  | [] => acc
  | line :: rest =>
    if effError c_tables bp line > threshold then
      classifyLines threshold c_tables bp (line_id + 1)
        (acc.1, acc.2 ++ [(line.predictedPath, line)]) rest
    else
      classifyLines threshold c_tables bp (line_id + 1)
        (dset acc.1 (bp.1, bp.2.1, bp.2.2, line_id) line, acc.2) rest

def classifyBlock {G : Type} (threshold : ℚ) (c_tables : List RPath)
    (acc : List (LPath × Line G) × List ((String × String) × Line G))
    (b : RPath × List (Line G)) :
    List (LPath × Line G) × List ((String × String) × Line G) :=
  classifyLines threshold c_tables b.1 0 acc b.2

/-- The full reclassification loop over `detected_lines_by_block`,
producing the `detected_lines` dict and the `free_lines` list. -/
def classify {G : Type} (threshold : ℚ) (c_tables : List RPath)
    (byBlock : List (RPath × List (Line G))) :
    List (LPath × Line G) × List ((String × String) × Line G) :=
  byBlock.foldl (classifyBlock threshold c_tables) ([], [])

/-- The composition performed by `LineDetectionProcessor.process`:
reclassification followed by reliable-contour construction.

The source (`detect/lines.py` line 129) passes only three arguments,
`reliable_contours(blocks, free_lines, detected_lines)`, to the
four-required-argument `reliable_contours(all_contours, all_lines,
free_lines, detected_lines)`, which raises a `TypeError` on every page.
This definition follows the intended data flow, which is also the
spec's description: the predicted contours, the kept lines, the freed
lines and the detected-lines mapping to mutate. -/
def detect_process {G : Type} (ops : GeomOps G) (threshold : ℚ)
    (c_tables : List RPath) (blocks : List (RPath × G))
    (byBlock : List (RPath × List (Line G))) :
    Except String (List (RPath × G) × List (LPath × Line G)) :=
  let dt := classify threshold c_tables byBlock
  reliable_contours ops blocks dt.1 dt.2 dt.1 none

/-- The reliable-contours writing loop (`detect/lines.py` lines
139-144): every entry is serialized; entries whose geometry type is not
`"Polygon"` and which are not empty are additionally logged (as an
error, never raised).  Returns the log entries (path and offending
geometry type) and the emitted entries, in order. -/
def write_contours {G : Type} (ops : GeomOps G) (rel : List (RPath × G)) :
    List (RPath × String) × List (RPath × G) :=
  rel.foldl
    (fun acc kv =>
      (if ops.geomType kv.2 ≠ "Polygon" ∧ ops.isEmpty kv.2 = false then
        acc.1 ++ [(kv.1, ops.geomType kv.2)]
      else acc.1, acc.2 ++ [kv]))
    ([], [])

/-!
### The confidence sampler (`detect/lines.py`, `ConfidenceSampler.__call__`)

The raster machinery (grid construction, rescaling, nearest-neighbour
remap) is out-of-scope collaborator code; the sampled label list it
produces is taken as the input here.  `np.bincount(labels, minlength)`
and the normalisation of lines 44-54 are embedded directly.
-/

/-- Numpy's `np.bincount(labels, minlength=m)`: entry `i` counts occurrences of
`i`; the length is `max m (maxlabel + 1)` (`m` for an empty input). -/
def bincount (labels : List ℕ) (minlength : ℕ) : List ℕ :=
  let len := match labels with
    | [] => minlength
    | _ => max minlength (labels.foldl max 0 + 1)
  (List.range len).map (fun i => labels.count i)

/-- The body of `ConfidenceSampler.__call__` after sampling (`detect/lines.py`
lines 44-54): a class enumeration is a list of `(name, value)` pairs
with `value < classes.length` (so the `counts[k.value]` subscript,
modelled with a default, is in bounds in the source's data model). -/
def sampler_call (prediction_name : String) (classes : List (String × ℕ))
    (labels : List ℕ) : List (String × ℚ) :=
  let counts := bincount labels classes.length
  let sum_all := counts.sum
  if sum_all > 0 then
    classes.map (fun k =>
      (prediction_name ++ "/" ++ k.1, ((counts.getD k.2 0 : ℕ) : ℚ) / (sum_all : ℚ)))
  else []

/-!
### The line rewriter (`core/lines.py`, `LineRewriter`)

Paths at this stage are tuples of strings as read back from the lines
archive; we model them as `List String`.  Python's `int()` on a
canonical decimal numeral is modelled by `String.toNat?`; fallible
steps (`path[:2]` unpacking, the `path[2]` subscript, the four-field
validation, `int()`) are modelled with `Except`.
-/

/-- A path at the line-extraction stage. -/
abbrev RWPath : Type := List String

/-- Split a character list at every occurrence of `sep`, keeping empty
pieces — the semantics of Python's `str.split(sep)` for a one-character
separator (`"".split(".") == [""]`). -/
def splitChar (sep : Char) : List Char → List (List Char)
  | [] => [[]]
  | c :: rest =>
    if c = sep then [] :: splitChar sep rest
    else
      match splitChar sep rest with
      | [] => [[c]]
      | w :: ws => (c :: w) :: ws

/-- Python's `s.split(sep)` for a one-character separator. -/
def pySplit (s : String) (sep : Char) : List String :=
  (splitChar sep s.data).map (fun cs => String.mk cs)

/-- The `"."` separator. -/
def dotChar : Char := Char.ofNat 46

/-- The `"/"` separator. -/
def slashChar : Char := Char.ofNat 47

/-- The numeric value of a list of decimal digit characters. -/
def digitsToNat (l : List Char) : ℕ :=
  l.foldl (fun n c => n * 10 + (c.toNat - 48)) 0

/-- Python's `int()` restricted to canonical nonnegative decimal
numerals (the only form produced for path ids by the pipeline); any
other string raises a `ValueError`, modelled as `none`. -/
def pyToNat (s : String) : Option ℕ :=
  if s.data ≠ [] ∧ s.data.all Char.isDigit then some (digitsToNat s.data)
  else none

/-- The last element of a nonempty list of strings (`path[-1]`). -/
def lastStr : List String → String
  | [] => ""
  | [x] => x
  | _ :: x :: xs => lastStr (x :: xs)

/-- From `LineRewriter.__init__` (`core/lines.py` lines 54-57): the table
columns dict keyed by the `"/"`-split key tuples. -/
def mkColumns (tables : List (String × List ℚ)) : List (RWPath × List ℚ) :=
  tables.foldl (fun d kv => dset d (pySplit kv.1 slashChar) kv.2) []

/-- The method `LineRewriter._column_path` (`core/lines.py` lines 59-68).  Raises
(modelled as `Except.error`) on the `assert column >= 1`, on a path too
short for `path[:2]`/`path[2]`, on a `path[2]` that does not split into
exactly four `"."`-separated fields, and on a non-numeric `path[-1]`. -/
def column_path (path : RWPath) (column : ℕ) : Except String RWPath :=
  if column < 1 then Except.error "AssertionError" else
  match path with
  | predictor :: label :: x2 :: _ =>
    match pySplit x2 dotChar with
    | [block, division, _, _] =>
      match pyToNat (lastStr path) with
      | none => Except.error "ValueError"
      | some n =>
        let line := 1 + n
        let grid := String.intercalate "."
          [block, division, toString line, toString column]
        Except.ok [predictor, label, grid, "0"]
    | _ => Except.error "RuntimeError: not a valid table path"
  | _ => Except.error "IndexError"

/-- One rewritten line part: `(path, line, column_range)`. -/
abbrev Part (L : Type) : Type := RWPath × L × Option (Option ℚ × Option ℚ)

/-- The `for i, (x0, x1) in enumerate(zip(line_columns, line_columns[1:]))`
loop body of `LineRewriter.__call__`, with the enumerate counter made
explicit. -/
def columnLoop {L : Type} (path : RWPath) (line : L) (i : ℕ) :
    List (Option ℚ × Option ℚ) → Except String (List (Part L))
  | [] => Except.ok []
  | pr :: rest =>
    match column_path path (1 + i) with
    | Except.error e => Except.error e
    | Except.ok cp =>
      match columnLoop path line (i + 1) rest with
      | Except.error e => Except.error e
      | Except.ok ps => Except.ok ((cp, line, some pr) :: ps)

/-- The per-line body of `LineRewriter.__call__` (`core/lines.py`
lines 75-82): a line with no matching table entry is emitted once,
unchanged, with column `None`; a matching line is split along
`zip(line_columns, line_columns[1:])` where `line_columns` is the
boundary list wrapped in `None` on both ends. -/
def perLine {L : Type} (columns : List (RWPath × List ℚ)) (pl : RWPath × L) :
    Except String (List (Part L)) :=
  match dget? columns (pl.1.take 3) with
  | none => Except.ok [(pl.1, pl.2, none)]
  | some xs =>
    let lc : List (Option ℚ) := none :: (xs.map some ++ [none])
    columnLoop pl.1 pl.2 0 (lc.zip lc.tail)

/-- The method `LineRewriter.__call__` (`core/lines.py` lines 70-84) on the lines
dict (an association list in iteration order). -/
def rewriter_call {L : Type} (tables : List (String × List ℚ))
    (lines : List (RWPath × L)) : Except String (List (Part L)) :=
  (lines.mapM (perLine (mkColumns tables))).map List.flatten

/-!
### Free symbolic geometry for the end-to-end scenario (claim C1)

`FG` records the geometry operations applied, so an output can be shown
to be literally "the intersection of the convex hull of the kept line's
polygon with the original block contour".  `cascaded_union` is only
ever applied to a one-element list in the scenario; `uMany` is an
unused catch-all.  No degeneracy occurs in the scenario, so every
geometry type is `"Polygon"` and nothing is empty.
-/

inductive FG : Type where
  | poly : ℕ → FG
  | uOne : FG → FG
  | uMany : FG
  | hull : FG → FG
  | inter : FG → FG → FG
  deriving DecidableEq

def fgOps : GeomOps FG where
  union := fun l => match l with
    | [g] => FG.uOne g
    | _ => FG.uMany
  convexHull := FG.hull
  intersection := FG.inter
  geomType := fun _ => "Polygon"
  isEmpty := fun _ => false

/-- The block contour of the scenario page. -/
def c1Contour : FG := FG.poly 0

/-- The scenario line with predicted-path error `0.1`. -/
def c1Line1 : Line FG :=
  { polygon := FG.poly 1, predictedPath := ("regions", "TEXT"),
    pathError := fun _ => mkRat 1 10, confidence := 1 }

/-- The scenario line with predicted-path error `0.8`; its own
predicted path is `regions/H`. -/
def c1Line2 : Line FG :=
  { polygon := FG.poly 2, predictedPath := ("regions", "H"),
    pathError := fun _ => mkRat 8 10, confidence := 1 }

def c1Blocks : List (RPath × FG) := [(("regions", "TEXT", 0), c1Contour)]

def c1ByBlock : List (RPath × List (Line FG)) :=
  [(("regions", "TEXT", 0), [c1Line1, c1Line2])]

/-- The freed sublist contributed by one block of the reclassification
loop: the block's lines whose effective error exceeds the threshold,
keyed by their own predicted path, in detector order. -/
def freedOf {G : Type} (threshold : ℚ) (c_tables : List RPath)
    (b : RPath × List (Line G)) : List ((String × String) × Line G) :=
  (b.2.filter (fun l => decide (effError c_tables b.1 l > threshold))).map
    (fun l => (l.predictedPath, l))

/-- A table line (predicted path `regions/SEP`, raw error `0`) sitting
in a `regions/TABULAR` block with no registered TableColumns entry. -/
def c3Line : Line Unit :=
  { polygon := (), predictedPath := ("regions", "SEP"),
    pathError := fun _ => 0, confidence := 1 }

def c3ByBlock : List (RPath × List (Line Unit)) :=
  [(("regions", "TABULAR", 0), [c3Line])]

/-- A tabular-block line with raw path-mismatch error `0.9`. -/
def c3wLine : Line Unit :=
  { polygon := (), predictedPath := ("regions", "TEXT"),
    pathError := fun _ => mkRat 9 10, confidence := 1 }

def c3wByBlock : List (RPath × List (Line Unit)) :=
  [(("regions", "TABULAR", 7), [c3wLine])]

/-- A line with raw error `0.8` (freed at threshold `0.5`). -/
def c5LineA : Line Unit :=
  { polygon := (), predictedPath := ("regions", "H"),
    pathError := fun _ => mkRat 8 10, confidence := 1 }

/-- A line with raw error `0.1` (kept at threshold `0.5`). -/
def c5LineB : Line Unit :=
  { polygon := (), predictedPath := ("regions", "TEXT"),
    pathError := fun _ => mkRat 1 10, confidence := 1 }

def c5ByBlock : List (RPath × List (Line Unit)) :=
  [(("regions", "TEXT", 0), [c5LineA, c5LineB])]

def c5wLineA : Line Unit :=
  { polygon := (), predictedPath := ("regions", "H"),
    pathError := fun _ => mkRat 7 10, confidence := 1 }

def c5wLineB : Line Unit :=
  { polygon := (), predictedPath := ("regions", "TEXT"),
    pathError := fun _ => mkRat 2 10, confidence := 1 }

def c5wByBlock : List (RPath × List (Line Unit)) :=
  [(("regions", "TEXT", 3), [c5wLineA, c5wLineB])]

/-- Trivial one-point geometry for witnesses. -/
def unitOps : GeomOps Unit where
  union := fun _ => ()
  convexHull := fun _ => ()
  intersection := fun _ _ => ()
  geomType := fun _ => "Polygon"
  isEmpty := fun _ => false

def c4wLine : Line Unit :=
  { polygon := (), predictedPath := ("regions", "TEXT"),
    pathError := fun _ => mkRat 9 10, confidence := 1 }

def c4wCts : List (RPath × Unit) := [(("regions", "TEXT", 2), ())]

def c4wAl : List (LPath × Line Unit) := [(("regions", "TEXT", 2, 0), c4wLine)]

def c4wFree : List ((String × String) × Line Unit) :=
  [(("regions", "TEXT"), c4wLine), (("regions", "TEXT"), c4wLine)]

def c10wLineOld : Line Unit :=
  { polygon := (), predictedPath := ("regions", "TEXT"),
    pathError := fun _ => mkRat 1 10, confidence := 1 }

def c10wLineFree : Line Unit :=
  { polygon := (), predictedPath := ("regions", "ILLUSTRATION"),
    pathError := fun _ => mkRat 9 10, confidence := 1 }

def c10wCts : List (RPath × Unit) := [(("regions", "TEXT", 0), ())]

def c10wAl : List (LPath × Line Unit) :=
  [(("regions", "TEXT", 0, 0), c10wLineOld)]

def c10wFree : List ((String × String) × Line Unit) :=
  [(("regions", "ILLUSTRATION"), c10wLineFree)]

/-!
### Concrete geometry for the C6 counterexample

A U-shaped contour and two kept lines occupying the tops of the two
prongs.  The convex hull of the two line polygons intersects the U in
two disjoint squares (shapely: a MultiPolygon), so the code falls back
to the convex hull of that intersection — which juts across the gap of
the U and is not contained in the original contour.  The `pts6`
semantics ties each constructor to its honest point set: the
`intersection`/`convexHull`/`union` table entries used by the run are
definitionally the set intersection, the Mathlib `convexHull` and the
set union of their arguments.
-/

inductive CG6 : Type where
  | A | B | Csh | UU | H | I | F | J
  deriving DecidableEq

def ops6 : GeomOps CG6 where
  union := fun l =>
    match l with
    | [CG6.A, CG6.B] => CG6.UU
    | _ => CG6.J
  convexHull := fun g =>
    match g with
    | CG6.UU => CG6.H
    | CG6.I => CG6.F
    | _ => CG6.J
  intersection := fun a b =>
    match a, b with
    | CG6.H, CG6.Csh => CG6.I
    | _, _ => CG6.J
  geomType := fun g =>
    match g with
    | CG6.I => "MultiPolygon"
    | CG6.J => "GeometryCollection"
    | _ => "Polygon"
  isEmpty := fun _ => false

/-- An axis-aligned closed box. -/
def box (a b c d : ℚ) : Set (ℚ × ℚ) := Set.Icc a b ×ˢ Set.Icc c d

def setA : Set (ℚ × ℚ) := box 0 1 2 3

def setB : Set (ℚ × ℚ) := box 2 3 2 3

/-- The U-shaped contour: a base and two prongs. -/
def setC : Set (ℚ × ℚ) := box 0 3 0 1 ∪ box 0 1 1 3 ∪ box 2 3 1 3

def pts6 : CG6 → Set (ℚ × ℚ)
  | CG6.A => setA
  | CG6.B => setB
  | CG6.Csh => setC
  | CG6.UU => setA ∪ setB
  | CG6.H => convexHull ℚ (setA ∪ setB)
  | CG6.I => convexHull ℚ (setA ∪ setB) ∩ setC
  | CG6.F => convexHull ℚ (convexHull ℚ (setA ∪ setB) ∩ setC)
  | CG6.J => ∅

def c6LineA : Line CG6 :=
  { polygon := CG6.A, predictedPath := ("regions", "TEXT"),
    pathError := fun _ => 0, confidence := 1 }

def c6LineB : Line CG6 :=
  { polygon := CG6.B, predictedPath := ("regions", "TEXT"),
    pathError := fun _ => 0, confidence := 1 }

def c6Cts : List (RPath × CG6) := [(("regions", "TEXT", 0), CG6.Csh)]

def c6Al : List (LPath × Line CG6) :=
  [(("regions", "TEXT", 0, 0), c6LineA), (("regions", "TEXT", 0, 1), c6LineB)]

def c6wLine : Line Unit :=
  { polygon := (), predictedPath := ("regions", "TEXT"),
    pathError := fun _ => 0, confidence := 1 }

def c6wCts : List (RPath × Unit) := [(("regions", "TEXT", 5), ())]

def c6wAl : List (LPath × Line Unit) :=
  [(("regions", "TEXT", 5, 0), c6wLine)]

/-!
### Concrete geometry for the C2 counterexample

A unit-square contour and one kept line whose (valid, non-degenerate)
polygon touches the contour exactly along the shared edge `x = 1`:
shapely's intersection of the two polygons is then a LineString, and
the convex hull of a LineString is that LineString again, so the
emitted geometry for the block is a non-empty non-Polygon.
-/

inductive CG2 : Type where
  | S | P | UP | E | J
  deriving DecidableEq

def ops2 : GeomOps CG2 where
  union := fun l =>
    match l with
    | [CG2.P] => CG2.UP
    | _ => CG2.J
  convexHull := fun g =>
    match g with
    | CG2.UP => CG2.P
    | CG2.E => CG2.E
    | _ => CG2.J
  intersection := fun a b =>
    match a, b with
    | CG2.P, CG2.S => CG2.E
    | _, _ => CG2.J
  geomType := fun g =>
    match g with
    | CG2.E => "LineString"
    | CG2.J => "GeometryCollection"
    | _ => "Polygon"
  isEmpty := fun _ => false

def setS : Set (ℚ × ℚ) := box 0 1 0 1

def setP : Set (ℚ × ℚ) := box 1 2 0 1

def pts2 : CG2 → Set (ℚ × ℚ)
  | CG2.S => setS
  | CG2.P => setP
  | CG2.UP => setP
  | CG2.E => setP ∩ setS
  | CG2.J => ∅

def c2Line : Line CG2 :=
  { polygon := CG2.P, predictedPath := ("regions", "TEXT"),
    pathError := fun _ => 0, confidence := 1 }

def c2Cts : List (RPath × CG2) := [(("regions", "TEXT", 0), CG2.S)]

def c2Al : List (LPath × Line CG2) := [(("regions", "TEXT", 0, 0), c2Line)]

def c2wLineKept : Line Unit :=
  { polygon := (), predictedPath := ("regions", "TEXT"),
    pathError := fun _ => mkRat 1 10, confidence := 1 }

def c2wLineFree : Line Unit :=
  { polygon := (), predictedPath := ("regions", "SEP"),
    pathError := fun _ => mkRat 9 10, confidence := 1 }

def c2wCts : List (RPath × Unit) := [(("regions", "TEXT", 0), ())]

def c2wAl : List (LPath × Line Unit) :=
  [(("regions", "TEXT", 0, 0), c2wLineKept)]

def c2wFree : List ((String × String) × Line Unit) :=
  [(("regions", "SEP"), c2wLineFree)]

def c2wRel : List (RPath × Unit) :=
  [(("regions", "SEP", 1), ()), (("regions", "TEXT", 0), ())]

def c2wDet : List (LPath × Line Unit) :=
  [(("regions", "TEXT", 0, 0), c2wLineKept),
   (("regions", "SEP", 1, 0), c2wLineFree)]

/-!
### Spec-side definitions for the line-rewriter claims
-/

/-- The column ranges the spec describes: the N+1 consecutive boundary
pairs of the registered boundaries, with `None` on the outer edges.
This definition follows the spec's words and is compared against the
code's `zip(line_columns, line_columns[1:])`. -/
def specRanges (xs : List ℚ) : List (Option ℚ × Option ℚ) :=
  (none :: xs.map some).zip (xs.map some ++ [none])

/-- The parts emitted for one line, as a total function (defined when
the per-line body does not raise). -/
def partsFor {L : Type} (columns : List (RWPath × List ℚ))
    (pl : RWPath × L) : List (Part L) :=
  (perLine columns pl).toOption.getD []

/-- The column-path construction succeeds on a valid table path. -/
def validTablePath (path : RWPath) : Prop :=
  3 ≤ path.length ∧ (pySplit (path.getD 2 "") dotChar).length = 4 ∧
    (pyToNat (lastStr path)).isSome

def c7wTables : List (String × List ℚ) :=
  [("regions/TABULAR/1.2.3.4", [100, 300])]

def c7wLines : List (RWPath × ℕ) :=
  [(["regions", "TABULAR", "1.2.3.4", "0"], 7),
   (["regions", "TEXT", "0", "1"], 8)]

def c8wTables : List (String × List ℚ) :=
  [("regions/TABULAR/0.1.0", [100])]

def c8wLines : List (RWPath × ℕ) :=
  [(["regions", "TABULAR", "0.1.0", "2"], 5)]

/-!
### Theorems
-/

theorem dget?_dset_self {K V : Type} [DecidableEq K]
    (d : List (K × V)) (k : K) (v : V) : dget? (dset d k v) k = some v := by
  induction d with
  | nil => simp [dset, dget?]
  | cons kv rest ih =>
    by_cases h : kv.1 = k
    · simp [dset, h, dget?]
    · simp [dset, h, dget?, ih]

theorem dget?_dset_ne {K V : Type} [DecidableEq K]
    (d : List (K × V)) (k k' : K) (v : V) (h : k' ≠ k) :
    dget? (dset d k v) k' = dget? d k' := by
  have h2 : ¬ (k = k') := fun hh => h hh.symm
  induction d with
  | nil => simp [dset, dget?, h2]
  | cons kv rest ih =>
    by_cases hk : kv.1 = k
    · subst hk
      have h3 : ¬ (kv.1 = k') := fun hh => h2 hh
      simp [dset, dget?, h3]
    · by_cases hk' : kv.1 = k'
      · simp only [dset, if_neg hk, dget?, if_pos hk']
      · simp only [dset, if_neg hk, dget?, if_neg hk', ih]

theorem mem_dset {K V : Type} [DecidableEq K]
    (d : List (K × V)) (k : K) (v : V) (p : K × V) (hp : p ∈ dset d k v) :
    p ∈ d ∨ p = (k, v) := by
  induction d with
  | nil => simpa [dset] using hp
  | cons kv rest ih =>
    by_cases h : kv.1 = k
    · simp only [dset, h, if_pos rfl] at hp
      rcases List.mem_cons.mp hp with h1 | h2
      · exact Or.inr h1
      · exact Or.inl (List.mem_cons_of_mem _ h2)
    · simp only [dset, h, if_neg h] at hp
      rcases List.mem_cons.mp hp with h1 | h2
      · exact Or.inl (List.mem_cons.mpr (Or.inl h1))
      · rcases ih h2 with h3 | h4
        · exact Or.inl (List.mem_cons_of_mem _ h3)
        · exact Or.inr h4

theorem dkeys_dset {K V : Type} [DecidableEq K]
    (d : List (K × V)) (k : K) (v : V) :
    dkeys (dset d k v) = if k ∈ dkeys d then dkeys d else dkeys d ++ [k] := by
  induction d with
  | nil => simp [dset, dkeys]
  | cons kv rest ih =>
    by_cases h : kv.1 = k
    · subst h
      simp [dset, dkeys]
    · have h2 : ¬ (k = kv.1) := fun hh => h hh.symm
      simp only [dkeys, List.map_cons] at ih ⊢
      simp only [dset, if_neg h, List.map_cons, ih, List.mem_cons, h2,
        false_or, dkeys]
      by_cases hm : k ∈ List.map Prod.fst rest
      · simp [hm]
      · simp [hm]

theorem dkeys_dset_nodup {K V : Type} [DecidableEq K]
    (d : List (K × V)) (k : K) (v : V) (h : (dkeys d).Nodup) :
    (dkeys (dset d k v)).Nodup := by
  rw [dkeys_dset]
  by_cases hm : k ∈ dkeys d
  · simpa [hm] using h
  · simp only [hm, if_neg]
    simpa [List.nodup_append] using ⟨h, hm⟩

theorem classifyLines_free {G : Type} (threshold : ℚ) (c_tables : List RPath)
    (bp : RPath) (lines : List (Line G)) : ∀ i acc,
    (classifyLines threshold c_tables bp i acc lines).2 =
      acc.2 ++ freedOf threshold c_tables (bp, lines) := by
  induction lines with
  | nil => intro i acc; simp [classifyLines, freedOf]
  | cons line rest ih =>
    intro i acc
    by_cases h : effError c_tables bp line > threshold
    · simp only [classifyLines, if_pos h, ih, freedOf, List.filter_cons]
      simp [h]
    · simp only [classifyLines, if_neg h, ih, freedOf, List.filter_cons]
      simp [h]

theorem classifyLines_det_frame {G : Type} (threshold : ℚ)
    (c_tables : List RPath) (bp : RPath) (lines : List (Line G)) :
    ∀ i acc (k : LPath), (pfx3 k ≠ bp ∨ k.2.2.2 < i) →
    dget? (classifyLines threshold c_tables bp i acc lines).1 k =
      dget? acc.1 k := by
  induction lines with
  | nil => intro i acc k _; simp [classifyLines]
  | cons line rest ih =>
    intro i acc k hk
    have hne : k ≠ (bp.1, bp.2.1, bp.2.2, i) := by
      intro he
      rcases hk with h1 | h2
      · exact h1 (by rw [he]; rfl)
      · rw [he] at h2; exact Nat.lt_irrefl i h2
    have hk2 : pfx3 k ≠ bp ∨ k.2.2.2 < i + 1 := by
      rcases hk with h1 | h2
      · exact Or.inl h1
      · exact Or.inr (Nat.lt_succ_of_lt h2)
    by_cases h : effError c_tables bp line > threshold
    · simp only [classifyLines, if_pos h]
      exact ih (i + 1) _ k hk2
    · simp only [classifyLines, if_neg h]
      rw [ih (i + 1) _ k hk2]
      exact dget?_dset_ne _ _ _ _ hne

theorem classifyLines_det_get {G : Type} (threshold : ℚ)
    (c_tables : List RPath) (bp : RPath) (lines : List (Line G)) :
    ∀ i acc j (hj : j < lines.length),
    dget? (classifyLines threshold c_tables bp i acc lines).1
        (bp.1, bp.2.1, bp.2.2, i + j) =
      if effError c_tables bp (lines.get ⟨j, hj⟩) > threshold then
        dget? acc.1 (bp.1, bp.2.1, bp.2.2, i + j)
      else some (lines.get ⟨j, hj⟩) := by
  induction lines with
  | nil => intro i acc j hj; exact absurd hj (Nat.not_lt_zero j)
  | cons line rest ih =>
    intro i acc j hj
    cases j with
    | zero =>
      have hfr : pfx3 (bp.1, bp.2.1, bp.2.2, i) ≠ bp ∨
          (bp.1, bp.2.1, bp.2.2, i).2.2.2 < i + 1 :=
        Or.inr (Nat.lt_succ_self i)
      by_cases h : effError c_tables bp line > threshold
      · simp only [classifyLines, if_pos h, Nat.add_zero, List.get]
        rw [classifyLines_det_frame threshold c_tables bp rest (i+1) _ _ hfr]
      · simp only [classifyLines, if_neg h, Nat.add_zero, List.get]
        rw [classifyLines_det_frame threshold c_tables bp rest (i+1) _ _ hfr]
        exact dget?_dset_self _ _ _
    | succ j' =>
      have hj' : j' < rest.length := Nat.lt_of_succ_lt_succ hj
      have harith : i + (j' + 1) = (i + 1) + j' := by omega
      have hkey : (bp.1, bp.2.1, bp.2.2, i + (j' + 1)) =
          (bp.1, bp.2.1, bp.2.2, (i + 1) + j') := by rw [harith]
      have hne : (bp.1, bp.2.1, bp.2.2, (i + 1) + j') ≠
          (bp.1, bp.2.1, bp.2.2, i) := by
        intro he
        have : (i + 1) + j' = i := congrArg (fun q : LPath => q.2.2.2) he
        omega
      by_cases h : effError c_tables bp line > threshold
      · simp only [classifyLines, if_pos h, List.get]
        rw [hkey, ih (i + 1) _ j' hj']
      · simp only [classifyLines, if_neg h, List.get]
        rw [hkey, ih (i + 1) _ j' hj']
        rw [dget?_dset_ne _ _ _ _ hne]

theorem classify_free_concat {G : Type} (threshold : ℚ) (c_tables : List RPath)
    (byBlock : List (RPath × List (Line G))) : ∀ acc,
    (byBlock.foldl (classifyBlock threshold c_tables) acc).2 =
      acc.2 ++ (byBlock.map (freedOf threshold c_tables)).flatten := by
  induction byBlock with
  | nil => intro acc; simp
  | cons b rest ih =>
    intro acc
    simp only [List.foldl_cons, ih, List.map_cons, List.flatten_cons]
    rw [classifyBlock, classifyLines_free]
    simp [List.append_assoc]

theorem classify_det_frame {G : Type} (threshold : ℚ) (c_tables : List RPath)
    (byBlock : List (RPath × List (Line G))) : ∀ acc (k : LPath),
    (∀ b ∈ byBlock, b.1 ≠ pfx3 k) →
    dget? (byBlock.foldl (classifyBlock threshold c_tables) acc).1 k =
      dget? acc.1 k := by
  induction byBlock with
  | nil => intro acc k _; rfl
  | cons b rest ih =>
    intro acc k hk
    simp only [List.foldl_cons]
    rw [ih _ k (fun b hb => hk b (List.mem_cons_of_mem _ hb))]
    rw [classifyBlock, classifyLines_det_frame]
    exact Or.inl (Ne.symm (hk b (List.mem_cons_self b rest)))

theorem classify_det_get {G : Type} (threshold : ℚ) (c_tables : List RPath)
    (byBlock : List (RPath × List (Line G))) (bp : RPath)
    (lines : List (Line G)) (hnd : (dkeys byBlock).Nodup)
    (hm : (bp, lines) ∈ byBlock) (j : ℕ) (hj : j < lines.length) :
    dget? (classify threshold c_tables byBlock).1 (bp.1, bp.2.1, bp.2.2, j) =
      if effError c_tables bp (lines.get ⟨j, hj⟩) > threshold then none
      else some (lines.get ⟨j, hj⟩) := by
  obtain ⟨s, t2, hsplit⟩ := List.append_of_mem hm
  subst hsplit
  have hmap : dkeys (s ++ (bp, lines) :: t2) =
      dkeys s ++ bp :: dkeys t2 := by simp [dkeys]
  rw [hmap] at hnd
  rcases List.nodup_append.mp hnd with ⟨hnds, hndc, hdisj⟩
  have hbp_s : ∀ b ∈ s, b.1 ≠ bp := by
    intro b hb he
    exact hdisj (he ▸ List.mem_map_of_mem Prod.fst hb)
      (List.mem_cons_self bp (dkeys t2))
  have hbp_t : ∀ b ∈ t2, b.1 ≠ bp := by
    intro b hb he
    exact (List.nodup_cons.mp hndc).1 (he ▸ List.mem_map_of_mem Prod.fst hb)
  have hkey : pfx3 (bp.1, bp.2.1, bp.2.2, j) = bp := rfl
  rw [classify, List.foldl_append, List.foldl_cons]
  rw [classify_det_frame threshold c_tables t2 _ _
    (fun b hb => fun he => hbp_t b hb (he.trans hkey))]
  rw [classifyBlock]
  have h0j : (0 : ℕ) + j = j := Nat.zero_add j
  rw [show ((bp.1, bp.2.1, bp.2.2, j) : LPath) =
    (bp.1, bp.2.1, bp.2.2, 0 + j) by rw [h0j]]
  rw [classifyLines_det_get threshold c_tables bp lines 0 _ j hj]
  rw [classify_det_frame threshold c_tables s _ _
    (fun b hb => fun he => hbp_s b hb (he.trans (by rw [h0j]; exact hkey)))]
  simp [dget?]

/-- C3, counterexample: with a (configurable) negative reclassification
threshold `-1`, a line of a `regions/TABULAR` block with no registered
TableColumns entry has its error forced to zero, yet `0 > -1` holds, so
the line IS freed — refuting "the line is never freed ... for any
configured reclassification threshold". -/
theorem c3_counterexample :
    effError [] ("regions", "TABULAR", 0) c3Line = 0 ∧
    classify (-1) [] c3ByBlock = ([], [(("regions", "SEP"), c3Line)]) :=
  ⟨rfl, rfl⟩

/-- C3 (amended): for every detected line whose originating block has
the `regions/TABULAR` predictor/class pair and no registered
TableColumns entry, the path-mismatch error is forced to zero
regardless of the computed value, and — provided the configured
threshold is nonnegative — no line of that block is ever freed: the
global freed list is the concatenation of the per-block freed sublists,
and this block's sublist is empty. -/
theorem c3_table_lines_never_freed {G : Type} (t : ℚ) (ht : 0 ≤ t)
    (ct : List RPath) (byBlock : List (RPath × List (Line G)))
    (bp : RPath) (lines : List (Line G)) (_hm : (bp, lines) ∈ byBlock)
    (htab : pfx2 bp = ("regions", "TABULAR")) (hnc : bp ∉ ct) :
    (∀ line : Line G, effError ct bp line = 0) ∧
    (classify t ct byBlock).2 = (byBlock.map (freedOf t ct)).flatten ∧
    freedOf t ct (bp, lines) = [] := by
  have he : ∀ line : Line G, effError ct bp line = 0 := by
    intro line; simp [effError, htab, hnc]
  refine ⟨he, ?_, ?_⟩
  · rw [classify, classify_free_concat]; rfl
  · rw [freedOf]
    have hnil : lines.filter (fun l => decide (effError ct bp l > t)) = [] := by
      apply List.filter_eq_nil_iff.mpr
      intro l _
      simp only [he l, decide_eq_true_eq]
      exact not_lt.mpr ht
    rw [hnil]
    rfl

/-- Witness for the amended C3: a raw error of `0.9` against threshold
`0.5` would free the line, but the TABULAR-without-columns rule forces
the error to zero and the line is not freed. -/
theorem c3_witness :
    (0 : ℚ) ≤ mkRat 1 2 ∧
    pfx2 ("regions", "TABULAR", 7) = ("regions", "TABULAR") ∧
    (("regions", "TABULAR", 7) : RPath) ∉ ([] : List RPath) ∧
    (∀ line : Line Unit, effError [] ("regions", "TABULAR", 7) line = 0) ∧
    (classify (mkRat 1 2) [] c3wByBlock).2 =
      (c3wByBlock.map (freedOf (mkRat 1 2) [])).flatten ∧
    freedOf (mkRat 1 2) [] (("regions", "TABULAR", 7), [c3wLine]) = [] := by
  have h := c3_table_lines_never_freed (G := Unit) (mkRat 1 2) (by decide)
    [] c3wByBlock ("regions", "TABULAR", 7) [c3wLine]
    (List.mem_singleton.mpr rfl) rfl (by decide)
  exact ⟨by decide, rfl, by decide, h.1, h.2.1, h.2.2⟩

/-- C5, counterexample: in a block whose first detected line (index 0)
is freed and whose second (index 1) is kept, the kept line is stored
under line id `1` and no line id `0` exists — the kept-line ids are NOT
the contiguous sequence `0, 1, 2, ...` of positions in the kept-line
list; they are positions in the full detected-line list. -/
theorem c5_counterexample :
    dget? (classify (mkRat 1 2) [] c5ByBlock).1 ("regions", "TEXT", 0, 0) =
      none ∧
    dget? (classify (mkRat 1 2) [] c5ByBlock).1 ("regions", "TEXT", 0, 1) =
      some c5LineB :=
  ⟨rfl, rfl⟩

/-- C5 (amended): for every block `(bp, lines)` of the (nodup-keyed)
detected-lines-by-block mapping and every detector index `j`, the kept
mapping holds `lines[j]` at path `(bp, j)` exactly when the line's
effective error is at most the threshold, and holds nothing at `(bp, j)`
when the line was freed: line ids are 0-based indices into the block's
full detected-line list, so freed lines leave gaps. -/
theorem c5_kept_line_ids {G : Type} (threshold : ℚ) (c_tables : List RPath)
    (byBlock : List (RPath × List (Line G))) (bp : RPath)
    (lines : List (Line G)) (hnd : (dkeys byBlock).Nodup)
    (hm : (bp, lines) ∈ byBlock) (j : ℕ) (hj : j < lines.length) :
    dget? (classify threshold c_tables byBlock).1 (bp.1, bp.2.1, bp.2.2, j) =
      if effError c_tables bp (lines.get ⟨j, hj⟩) > threshold then none
      else some (lines.get ⟨j, hj⟩) :=
  classify_det_get threshold c_tables byBlock bp lines hnd hm j hj

/-- Witness for the amended C5: the second line (index 1, error `0.2`)
of a block whose first line is freed is kept under line id `1`. -/
theorem c5_witness :
    (dkeys c5wByBlock).Nodup ∧
    (("regions", "TEXT", 3), [c5wLineA, c5wLineB]) ∈ c5wByBlock ∧
    dget? (classify (mkRat 1 2) [] c5wByBlock).1 ("regions", "TEXT", 3, 1) =
      some c5wLineB := by
  have h := c5_kept_line_ids (G := Unit) (mkRat 1 2) [] c5wByBlock
    ("regions", "TEXT", 3) [c5wLineA, c5wLineB] (by decide)
    (List.mem_singleton.mpr rfl) 1 (by decide)
  exact ⟨by decide, List.mem_singleton.mpr rfl, h.trans (by rfl)⟩

/-- C9: the confidence sampler never divides by zero: when the total
bincount over the sampled labels is zero (degenerate/empty grid) it
returns the empty evidence mapping, and otherwise every returned
evidence value is a class count divided by the (positive) total. -/
theorem c9_sampler_no_div_by_zero (pn : String) (classes : List (String × ℕ))
    (labels : List ℕ) :
    ((bincount labels classes.length).sum = 0 →
      sampler_call pn classes labels = []) ∧
    (0 < (bincount labels classes.length).sum →
      ∀ kv ∈ sampler_call pn classes labels,
        ∃ c : ℕ,
          kv.2 = (c : ℚ) / (((bincount labels classes.length).sum : ℕ) : ℚ) ∧
          (0 : ℚ) < (((bincount labels classes.length).sum : ℕ) : ℚ)) := by
  constructor
  · intro h
    simp [sampler_call, h]
  · intro h kv hkv
    simp only [sampler_call, if_pos h, List.mem_map] at hkv
    obtain ⟨k, _, hk⟩ := hkv
    refine ⟨(bincount labels classes.length).getD k.2 0, ?_, ?_⟩
    · rw [← hk]
    · exact_mod_cast h

/-- Witness for C9: two classes, three samples of labels `0, 0, 1`;
the total is `3 > 0` and every evidence value is a count over `3`. -/
theorem c9_witness :
    0 < (bincount [0, 0, 1] ([("TEXT", 0), ("SEP", 1)] :
        List (String × ℕ)).length).sum ∧
    ∀ kv ∈ sampler_call "regions" [("TEXT", 0), ("SEP", 1)] [0, 0, 1],
      ∃ c : ℕ,
        kv.2 = (c : ℚ) /
          (((bincount [0, 0, 1] ([("TEXT", 0), ("SEP", 1)] :
            List (String × ℕ)).length).sum : ℕ) : ℚ) ∧
        (0 : ℚ) < (((bincount [0, 0, 1] ([("TEXT", 0), ("SEP", 1)] :
          List (String × ℕ)).length).sum : ℕ) : ℚ) :=
  ⟨by decide,
    (c9_sampler_no_div_by_zero "regions" [("TEXT", 0), ("SEP", 1)]
      [0, 0, 1]).2 (by decide)⟩

/-- C1: the spec's end-to-end scenario, on the intended composition of
reclassification and reliable-contour construction (the source's call
`reliable_contours(blocks, free_lines, detected_lines)` at
`detect/lines.py` line 129 omits the `all_lines` argument of the
four-required-argument function and raises a `TypeError` on every
page): one TEXT block (id 0) with two detected lines of errors `0.1`
and `0.8` at threshold `0.5` yields the kept line at
`regions/TEXT/0/0`; the freed line is reassigned to its own predicted
path `regions/H` under the fresh trailing id `1` (with detected-lines
entry `regions/H/1/0`); and the reliable contour for `regions/TEXT/0`
is exactly the intersection of the convex hull of the kept line's
polygon with the original block contour. -/
theorem c1_end_to_end_scenario :
    detect_process fgOps (mkRat 1 2) [] c1Blocks c1ByBlock =
      Except.ok
        ([(("regions", "H", 1), FG.poly 2),
          (("regions", "TEXT", 0),
            FG.inter (FG.hull (FG.uOne (FG.poly 1))) c1Contour)],
         [(("regions", "TEXT", 0, 0), c1Line1),
          (("regions", "H", 1, 0), c1Line2)]) := by
  rfl

/-!
### Lemmas about `reliable_contours`
-/

theorem dget?_isSome_of_mem_keys {K V : Type} [DecidableEq K]
    (d : List (K × V)) (k : K) (hk : k ∈ dkeys d) : (dget? d k).isSome := by
  induction d with
  | nil => simp [dkeys] at hk
  | cons kv rest ih =>
    by_cases h : kv.1 = k
    · simp [dget?, h]
    · rcases List.mem_cons.mp hk with h1 | h2
      · exact absurd h1.symm h
      · simp only [dget?, if_neg h]
        exact ih h2

theorem dget?_mem {K V : Type} [DecidableEq K]
    (d : List (K × V)) (k : K) (v : V) (h : dget? d k = some v) : (k, v) ∈ d := by
  induction d with
  | nil => simp [dget?] at h
  | cons kv rest ih =>
    by_cases hk : kv.1 = k
    · simp only [dget?, if_pos hk] at h
      exact List.mem_cons.mpr (Or.inl (by rw [← hk, ← Option.some_inj.mp h]))
    · simp only [dget?, if_neg hk] at h
      exact List.mem_cons_of_mem _ (ih h)

theorem miFold_mono {G : Type} (cts : List (RPath × G)) :
    ∀ (mi : (String × String) → ℕ) (p : String × String),
    mi p ≤ cts.foldl miStep mi p := by
  induction cts with
  | nil => intro mi p; exact Nat.le_refl _
  | cons kv rest ih =>
    intro mi p
    refine Nat.le_trans ?_ (ih (miStep mi kv) p)
    rw [miStep]
    by_cases h : p = pfx2 kv.1
    · simp only [if_pos h]; exact Nat.le_max_left _ _
    · simp only [if_neg h]; exact Nat.le_refl _

theorem miFold_le_of_le {G : Type} (cts : List (RPath × G)) :
    ∀ (mi mi2 : (String × String) → ℕ), (∀ p, mi p ≤ mi2 p) →
    ∀ p, cts.foldl miStep mi p ≤ cts.foldl miStep mi2 p := by
  induction cts with
  | nil => intro mi mi2 h p; exact h p
  | cons kv rest ih =>
    intro mi mi2 h p
    rw [List.foldl_cons, List.foldl_cons]
    apply ih
    intro q
    rw [miStep, miStep]
    by_cases hq : q = pfx2 kv.1
    · simp only [if_pos hq]
      exact max_le_max (h q) (Nat.le_refl _)
    · simp only [if_neg hq]
      exact h q

theorem rcMaxIds_ge {G : Type} (cts : List (RPath × G)) (k : RPath)
    (hk : k ∈ dkeys cts) : k.2.2 ≤ rcMaxIds cts (pfx2 k) := by
  rw [rcMaxIds]
  obtain ⟨kv, hkv, hfst⟩ := List.mem_map.mp hk
  subst hfst
  clear hk
  induction cts with
  | nil => simp at hkv
  | cons a rest ih =>
    rcases List.mem_cons.mp hkv with h1 | h2
    · subst h1
      rw [List.foldl_cons]
      refine Nat.le_trans ?_ (miFold_mono rest (miStep (fun _ => 0) kv) (pfx2 kv.1))
      simp [miStep]
    · rw [List.foldl_cons]
      have := ih h2
      -- the remaining fold only increases values, and adding an earlier
      -- step before a fold keeps every entry at least as large
      calc kv.1.2.2 ≤ rest.foldl miStep (fun _ => 0) (pfx2 kv.1) := this
        _ ≤ rest.foldl miStep (miStep (fun _ => 0) a) (pfx2 kv.1) := by
            apply miFold_le_of_le
            intro p
            rw [miStep]
            by_cases h : p = pfx2 a.1
            · simp only [if_pos h]; exact Nat.le_max_left _ _
            · simp only [if_neg h]; exact Nat.le_refl _

theorem freeStep_mi_ge {G : Type} (st : RCState G)
    (fl : (String × String) × Line G) (p : String × String) :
    st.mi p ≤ (freeStep st fl).mi p := by
  rw [freeStep]
  by_cases h : p = fl.1
  · subst h; simp
  · simp [h]

/-- Keys with a trailing id at most the current `max_ids` counter are
never written by the freed-lines loop: their `reliable` entry is
untouched. -/
theorem freeLoop_rel_frame {G : Type}
    (l : List ((String × String) × Line G)) :
    ∀ (st : RCState G) (k : RPath), k.2.2 ≤ st.mi (pfx2 k) →
    dget? (freeLoop st l).rel k = dget? st.rel k := by
  induction l with
  | nil => intro st k _; rfl
  | cons a rest ih =>
    intro st k hk
    have hstep : freeLoop st (a :: rest) = freeLoop (freeStep st a) rest := rfl
    rw [hstep]
    have hk2 : k.2.2 ≤ (freeStep st a).mi (pfx2 k) :=
      Nat.le_trans hk (freeStep_mi_ge st a (pfx2 k))
    rw [ih (freeStep st a) k hk2]
    have hne : k ≠ (a.1.1, a.1.2, st.mi a.1 + 1) := by
      intro he
      by_cases hp : pfx2 k = a.1
      · have h3 : k.2.2 = st.mi a.1 + 1 :=
          congrArg (fun q : RPath => q.2.2) he
        rw [hp] at hk
        omega
      · subst he
        exact hp rfl
    exact dget?_dset_ne _ _ _ _ hne

/-- The analogous frame property for the mutated `detected_lines`
mapping: keys whose block id is at most the current counter for their
2-prefix are untouched. -/
theorem freeLoop_det_frame {G : Type}
    (l : List ((String × String) × Line G)) :
    ∀ (st : RCState G) (k : LPath), k.2.2.1 ≤ st.mi (k.1, k.2.1) →
    dget? (freeLoop st l).det k = dget? st.det k := by
  induction l with
  | nil => intro st k _; rfl
  | cons a rest ih =>
    intro st k hk
    have hstep : freeLoop st (a :: rest) = freeLoop (freeStep st a) rest := rfl
    rw [hstep]
    have hk2 : k.2.2.1 ≤ (freeStep st a).mi (k.1, k.2.1) :=
      Nat.le_trans hk (freeStep_mi_ge st a (k.1, k.2.1))
    rw [ih (freeStep st a) k hk2]
    have hne : k ≠ (a.1.1, a.1.2, st.mi a.1 + 1, 0) := by
      intro he
      by_cases hp : (k.1, k.2.1) = a.1
      · have h3 : k.2.2.1 = st.mi a.1 + 1 :=
          congrArg (fun q : LPath => q.2.2.1) he
        rw [hp] at hk
        omega
      · subst he
        exact hp rfl
    exact dget?_dset_ne _ _ _ _ hne

/-- The j-th freed line `(P, line)` is written, and stays, at
`reliable` key `P + (mi P + 1 + countP,)` — where `countP` counts the
earlier freed lines predicting the same path `P` — and the
corresponding `detected_lines` key additionally carries a trailing
line id `0`. -/
theorem freeLoop_writes {G : Type}
    (l : List ((String × String) × Line G)) :
    ∀ (st : RCState G) (j : ℕ) (hj : j < l.length),
    dget? (freeLoop st l).rel
        ((l.get ⟨j, hj⟩).1.1, (l.get ⟨j, hj⟩).1.2,
          st.mi (l.get ⟨j, hj⟩).1 + 1 +
            (l.take j).countP (fun x => decide (x.1 = (l.get ⟨j, hj⟩).1))) =
      some (l.get ⟨j, hj⟩).2.polygon ∧
    dget? (freeLoop st l).det
        ((l.get ⟨j, hj⟩).1.1, (l.get ⟨j, hj⟩).1.2,
          st.mi (l.get ⟨j, hj⟩).1 + 1 +
            (l.take j).countP (fun x => decide (x.1 = (l.get ⟨j, hj⟩).1)), 0) =
      some (l.get ⟨j, hj⟩).2 := by
  induction l with
  | nil => intro st j hj; exact absurd hj (Nat.not_lt_zero j)
  | cons a rest ih =>
    intro st j hj
    have hstep : freeLoop st (a :: rest) = freeLoop (freeStep st a) rest := rfl
    cases j with
    | zero =>
      simp only [List.get, List.take_zero, List.countP_nil, Nat.add_zero]
      rw [hstep]
      constructor
      · rw [freeLoop_rel_frame rest (freeStep st a)
          (a.1.1, a.1.2, st.mi a.1 + 1) (by simp [freeStep, pfx2])]
        exact dget?_dset_self _ _ _
      · rw [freeLoop_det_frame rest (freeStep st a)
          (a.1.1, a.1.2, st.mi a.1 + 1, 0) (by simp [freeStep])]
        exact dget?_dset_self _ _ _
    | succ j' =>
      have hj' : j' < rest.length := Nat.lt_of_succ_lt_succ hj
      have hcnt : (freeStep st a).mi (rest.get ⟨j', hj'⟩).1 + 1 +
            (rest.take j').countP
              (fun x => decide (x.1 = (rest.get ⟨j', hj'⟩).1)) =
          st.mi (rest.get ⟨j', hj'⟩).1 + 1 +
            ((a :: rest).take (j' + 1)).countP
              (fun x => decide (x.1 = (rest.get ⟨j', hj'⟩).1)) := by
        rw [List.take_succ_cons, List.countP_cons]
        by_cases hp : (rest.get ⟨j', hj'⟩).1 = a.1
        · have e1 : (freeStep st a).mi (rest.get ⟨j', hj'⟩).1 =
              st.mi a.1 + 1 := by
            show (if (rest.get ⟨j', hj'⟩).1 = a.1 then st.mi a.1 + 1
              else st.mi (rest.get ⟨j', hj'⟩).1) = st.mi a.1 + 1
            rw [if_pos hp]
          rw [e1, hp]
          simp
          try omega
        · have e1 : (freeStep st a).mi (rest.get ⟨j', hj'⟩).1 =
              st.mi (rest.get ⟨j', hj'⟩).1 := by
            show (if (rest.get ⟨j', hj'⟩).1 = a.1 then st.mi a.1 + 1
              else st.mi (rest.get ⟨j', hj'⟩).1) = st.mi (rest.get ⟨j', hj'⟩).1
            rw [if_neg hp]
          have hp2 : ¬ (a.1 = (rest.get ⟨j', hj'⟩).1) :=
            fun he => hp he.symm
          rw [e1]
          simp [hp2]
          try exact hp2
          try omega
      rw [hstep]
      have hget : (a :: rest).get ⟨j' + 1, hj⟩ = rest.get ⟨j', hj'⟩ := rfl
      rw [hget, ← hcnt]
      exact ih (freeStep st a) j' hj'

/-- Every key of the grouped block-lines dict is the `path[:3]` prefix
of some detected-line key. -/
theorem rcGroup_keys {G : Type} (al : List (LPath × Line G)) :
    ∀ (d : List (RPath × List (Line G))) (bp : RPath),
    bp ∈ dkeys (al.foldl
      (fun d kv => dset d (pfx3 kv.1) ((dget? d (pfx3 kv.1)).getD [] ++ [kv.2]))
      d) →
    bp ∈ dkeys d ∨ ∃ kv ∈ al, pfx3 kv.1 = bp := by
  induction al with
  | nil => intro d bp h; exact Or.inl h
  | cons kv rest ih =>
    intro d bp h
    rcases ih _ bp h with h1 | h2
    · rw [dkeys_dset] at h1
      by_cases hm : pfx3 kv.1 ∈ dkeys d
      · simp only [if_pos hm] at h1
        exact Or.inl h1
      · simp only [if_neg hm, List.mem_append, List.mem_singleton] at h1
        rcases h1 with h3 | h4
        · exact Or.inl h3
        · exact Or.inr ⟨kv, List.mem_cons_self kv rest, h4.symm⟩
    · obtain ⟨kv2, hkv2, he⟩ := h2
      exact Or.inr ⟨kv2, List.mem_cons_of_mem _ hkv2, he⟩

/-- The grouped block-lines dict has no duplicate keys. -/
theorem rcGroup_nodup {G : Type} (al : List (LPath × Line G)) :
    (dkeys (rcGroup al)).Nodup := by
  rw [rcGroup]
  have h : ∀ (d : List (RPath × List (Line G))), (dkeys d).Nodup →
      (dkeys (al.foldl
        (fun d kv =>
          dset d (pfx3 kv.1) ((dget? d (pfx3 kv.1)).getD [] ++ [kv.2]))
        d)).Nodup := by
    induction al with
    | nil => intro d hd; exact hd
    | cons kv rest ih =>
      intro d hd
      exact ih _ (dkeys_dset_nodup _ _ _ hd)
  exact h [] List.nodup_nil

/-- Frame property of the block-lines loop: a reliable-contour key that
is no block's path is untouched. -/
theorem rcBlockLoop_frame {G : Type} (ops : GeomOps G)
    (cts : List (RPath × G)) (ign : Option (RPath → Bool)) :
    ∀ (groups : List (RPath × List (Line G))) (rel : List (RPath × G))
      (k : RPath) (res : List (RPath × G)),
    (∀ b ∈ groups, b.1 ≠ k) →
    rcBlockLoop ops cts ign rel groups = Except.ok res →
    dget? res k = dget? rel k := by
  intro groups
  induction groups with
  | nil =>
    intro rel k res _ hok
    simp only [rcBlockLoop] at hok
    rw [← Except.ok.inj hok]
  | cons b rest ih =>
    intro rel k res hne hok
    simp only [rcBlockLoop] at hok
    by_cases hig : ignCheck ign b.1 = true
    · rw [if_pos hig] at hok
      cases hc : dget? cts b.1 with
      | none => rw [hc] at hok; exact absurd hok (by simp)
      | some c =>
        rw [hc] at hok
        rw [ih _ k res (fun q hq => hne q (List.mem_cons_of_mem _ hq)) hok]
        exact dget?_dset_ne _ _ _ _ (hne b (List.mem_cons_self b rest)).symm
    · rw [if_neg hig] at hok
      exact ih _ k res (fun q hq => hne q (List.mem_cons_of_mem _ hq)) hok

/-- The block-lines loop succeeds when every block path has a predicted
contour. -/
theorem rcBlockLoop_ok {G : Type} (ops : GeomOps G)
    (cts : List (RPath × G)) (ign : Option (RPath → Bool)) :
    ∀ (groups : List (RPath × List (Line G))) (rel : List (RPath × G)),
    (∀ b ∈ groups, (dget? cts b.1).isSome) →
    ∃ res, rcBlockLoop ops cts ign rel groups = Except.ok res := by
  intro groups
  induction groups with
  | nil => intro rel _; exact ⟨rel, rfl⟩
  | cons b rest ih =>
    intro rel hs
    have hb := hs b (List.mem_cons_self b rest)
    simp only [rcBlockLoop]
    by_cases hig : ignCheck ign b.1 = true
    · rw [if_pos hig]
      cases hc : dget? cts b.1 with
      | none => rw [hc] at hb; exact absurd hb (by simp)
      | some c =>
        exact ih _ (fun q hq => hs q (List.mem_cons_of_mem _ hq))
    · rw [if_neg hig]
      exact ih _ (fun q hq => hs q (List.mem_cons_of_mem _ hq))

/-- The block-lines loop stores `blockGeom` of the block's contour and
lines at the block's path. -/
theorem rcBlockLoop_value {G : Type} (ops : GeomOps G)
    (cts : List (RPath × G)) (ign : Option (RPath → Bool)) :
    ∀ (groups : List (RPath × List (Line G))) (rel : List (RPath × G))
      (bp : RPath) (lns : List (Line G)) (c : G) (res : List (RPath × G)),
    (dkeys groups).Nodup → (bp, lns) ∈ groups → ignCheck ign bp = true →
    dget? cts bp = some c →
    rcBlockLoop ops cts ign rel groups = Except.ok res →
    dget? res bp = some (blockGeom ops c lns) := by
  intro groups
  induction groups with
  | nil => intro rel bp lns c res _ hm; simp at hm
  | cons b rest ih =>
    intro rel bp lns c res hnd hm hig hc hok
    have hnd2 : (dkeys rest).Nodup := (List.nodup_cons.mp hnd).2
    have hb1 : b.1 ∉ dkeys rest := (List.nodup_cons.mp hnd).1
    rcases List.mem_cons.mp hm with h1 | h2
    · -- the block at the head is ours
      have hb : b = (bp, lns) := h1.symm
      subst hb
      simp only [rcBlockLoop, if_pos hig, hc] at hok
      rw [rcBlockLoop_frame ops cts ign rest _ bp res
        (fun q hq hq2 => hb1 (by
          rw [show ((bp, lns) : RPath × List (Line G)).1 = bp from rfl, ← hq2]
          exact List.mem_map_of_mem Prod.fst hq)) hok]
      exact dget?_dset_self _ _ _
    · -- ours is further down; the head writes a different key
      have hbp : b.1 ≠ bp := by
        intro he
        exact hb1 (he ▸ List.mem_map_of_mem Prod.fst h2)
      simp only [rcBlockLoop] at hok
      by_cases hig2 : ignCheck ign b.1 = true
      · rw [if_pos hig2] at hok
        cases hc2 : dget? cts b.1 with
        | none => rw [hc2] at hok; exact absurd hok (by simp)
        | some c2 =>
          rw [hc2] at hok
          exact ih _ bp lns c res hnd2 h2 hig hc hok
      · rw [if_neg hig2] at hok
        exact ih _ bp lns c res hnd2 h2 hig hc hok

/-- The copy-through loop never touches a key that is already present. -/
theorem rcCopy_frame {G : Type} :
    ∀ (cts rel : List (RPath × G)) (k : RPath), (dget? rel k).isSome →
    dget? (rcCopy rel cts) k = dget? rel k := by
  intro cts
  induction cts with
  | nil => intro rel k _; rfl
  | cons kv rest ih =>
    intro rel k hk
    have hstep : rcCopy rel (kv :: rest) =
        rcCopy (if (dget? rel kv.1).isSome then rel else dset rel kv.1 kv.2)
          rest := rfl
    rw [hstep]
    by_cases hh : (dget? rel kv.1).isSome
    · rw [if_pos hh]
      exact ih rel k hk
    · rw [if_neg hh]
      have hne : k ≠ kv.1 := by
        intro he
        rw [he] at hk
        exact hh hk
      have heq : dget? (dset rel kv.1 kv.2) k = dget? rel k :=
        dget?_dset_ne _ _ _ _ hne
      rw [ih _ k (by rw [heq]; exact hk), heq]

/-- Under the call-site invariant that every detected-line block prefix
has a predicted contour, the builder succeeds, `reliable` is the block
loop's result plus the copy-through pass, and the returned
detected-lines mapping is the freed-lines loop's mapping. -/
theorem reliable_contours_run {G : Type} (ops : GeomOps G)
    (cts : List (RPath × G)) (al : List (LPath × Line G))
    (free : List ((String × String) × Line G)) (det : List (LPath × Line G))
    (ign : Option (RPath → Bool))
    (h1 : ∀ k ∈ dkeys al, pfx3 k ∈ dkeys cts) :
    ∃ rel2,
      rcBlockLoop ops cts ign (freeLoop ⟨rcMaxIds cts, [], det⟩ free).rel
        (rcGroup al) = Except.ok rel2 ∧
      reliable_contours ops cts al free det ign =
        Except.ok (rcCopy rel2 cts,
          (freeLoop ⟨rcMaxIds cts, [], det⟩ free).det) := by
  have hg : ∀ b ∈ rcGroup al, (dget? cts b.1).isSome := by
    intro b hb
    have hbk : b.1 ∈ dkeys (rcGroup al) := List.mem_map_of_mem Prod.fst hb
    rw [rcGroup] at hbk
    rcases rcGroup_keys al [] b.1 hbk with h0 | ⟨kv, hkv, he⟩
    · simp [dkeys] at h0
    · exact dget?_isSome_of_mem_keys cts _
        (he ▸ h1 kv.1 (List.mem_map_of_mem Prod.fst hkv))
  obtain ⟨rel2, hok⟩ := rcBlockLoop_ok ops cts ign (rcGroup al)
    (freeLoop ⟨rcMaxIds cts, [], det⟩ free).rel hg
  refine ⟨rel2, hok, ?_⟩
  simp only [reliable_contours, hok]

/-- A block-loop path never collides with a freed-line path: every
block path carries an id bounded by `max_ids`, and freed ids exceed it. -/
theorem block_paths_ne_freed {G : Type} (cts : List (RPath × G))
    (al : List (LPath × Line G))
    (h1 : ∀ k ∈ dkeys al, pfx3 k ∈ dkeys cts) (P : String × String) (n : ℕ)
    (hn : rcMaxIds cts P + 1 ≤ n) :
    ∀ b ∈ rcGroup al, b.1 ≠ ((P.1, P.2, n) : RPath) := by
  intro b hb he
  have hbk : b.1 ∈ dkeys (rcGroup al) := List.mem_map_of_mem Prod.fst hb
  rw [rcGroup] at hbk
  rcases rcGroup_keys al [] b.1 hbk with h0 | ⟨kv, hkv, hkve⟩
  · simp [dkeys] at h0
  · have hmem : b.1 ∈ dkeys cts :=
      hkve ▸ h1 kv.1 (List.mem_map_of_mem Prod.fst hkv)
    have hle := rcMaxIds_ge cts b.1 hmem
    rw [he] at hle
    have hpfx : pfx2 ((P.1, P.2, n) : RPath) = P := rfl
    rw [hpfx] at hle
    have h3 : ((P.1, P.2, n) : RPath).2.2 = n := rfl
    rw [h3] at hle
    omega

/-- C4: freed-line ids are allocated monotonically with no reuse: the
j-th freed line `(P, line)` of the freed list — with `m` freed lines
before it predicting the same path `P` — is emitted in the reliable
mapping at exactly the path `P + (max_id + 1 + m,)` (where `max_id` is
the maximal existing trailing id among predicted-contour paths with
prefix `P`, `0` if none), and its geometry is that line's own polygon,
never merged into any other entry. -/
theorem c4_freed_line_ids {G : Type} (ops : GeomOps G)
    (cts : List (RPath × G)) (al : List (LPath × Line G))
    (free : List ((String × String) × Line G)) (det : List (LPath × Line G))
    (ign : Option (RPath → Bool))
    (h1 : ∀ k ∈ dkeys al, pfx3 k ∈ dkeys cts)
    (j : ℕ) (hj : j < free.length) :
    relLookup ops cts al free det ign
        ((free.get ⟨j, hj⟩).1.1, (free.get ⟨j, hj⟩).1.2,
          rcMaxIds cts (free.get ⟨j, hj⟩).1 + 1 +
            (free.take j).countP
              (fun x => decide (x.1 = (free.get ⟨j, hj⟩).1))) =
      Except.ok (some (free.get ⟨j, hj⟩).2.polygon) := by
  obtain ⟨rel2, hok, hrun⟩ :=
    reliable_contours_run ops cts al free det ign h1
  have hK := (freeLoop_writes free ⟨rcMaxIds cts, [], det⟩ j hj).1
  have hfr := block_paths_ne_freed cts al h1 (free.get ⟨j, hj⟩).1
    (rcMaxIds cts (free.get ⟨j, hj⟩).1 + 1 +
      (free.take j).countP (fun x => decide (x.1 = (free.get ⟨j, hj⟩).1)))
    (Nat.le_add_right _ _)
  have h2 : dget? rel2
      ((free.get ⟨j, hj⟩).1.1, (free.get ⟨j, hj⟩).1.2,
        rcMaxIds cts (free.get ⟨j, hj⟩).1 + 1 +
          (free.take j).countP
            (fun x => decide (x.1 = (free.get ⟨j, hj⟩).1))) =
      some (free.get ⟨j, hj⟩).2.polygon := by
    rw [rcBlockLoop_frame ops cts ign (rcGroup al) _ _ rel2 hfr hok]
    exact hK
  have h3 : dget? (rcCopy rel2 cts)
      ((free.get ⟨j, hj⟩).1.1, (free.get ⟨j, hj⟩).1.2,
        rcMaxIds cts (free.get ⟨j, hj⟩).1 + 1 +
          (free.take j).countP
            (fun x => decide (x.1 = (free.get ⟨j, hj⟩).1))) =
      some (free.get ⟨j, hj⟩).2.polygon := by
    rw [rcCopy_frame cts rel2 _ (by rw [h2]; rfl)]
    exact h2
  rw [relLookup, hrun]
  simp only [Except.map]
  rw [h3]

/-- Witness for C4: the existing contour `regions/TEXT/2` gives
`max_id 2`; the second freed line predicting `regions/TEXT` (index 1)
is emitted at the fresh path `regions/TEXT/4` (= 2 + 1 + 1). -/
theorem c4_witness :
    (∀ k ∈ dkeys c4wAl, pfx3 k ∈ dkeys c4wCts) ∧
    relLookup unitOps c4wCts c4wAl c4wFree c4wAl none
      ("regions", "TEXT", 4) = Except.ok (some ()) := by
  refine ⟨by decide, ?_⟩
  have h := c4_freed_line_ids unitOps c4wCts c4wAl c4wFree c4wAl none
    (by decide) 1 (by decide)
  exact h

/-- C10: the builder mutates its detected-lines argument exactly by
inserting, for the j-th freed line, the entry `P + (new_id, 0)`
mapping to that line — and every pre-existing entry (whose block
prefix, like every detected line at the call site, has a predicted
contour) is left unchanged. -/
theorem c10_detected_lines_mutation {G : Type} (ops : GeomOps G)
    (cts : List (RPath × G)) (al : List (LPath × Line G))
    (free : List ((String × String) × Line G)) (det : List (LPath × Line G))
    (ign : Option (RPath → Bool))
    (h1 : ∀ k ∈ dkeys al, pfx3 k ∈ dkeys cts)
    (hdet : ∀ k ∈ dkeys det, pfx3 k ∈ dkeys cts) :
    (∀ k0 ∈ dkeys det,
      detLookup ops cts al free det ign k0 = Except.ok (dget? det k0)) ∧
    (∀ (j : ℕ) (hj : j < free.length),
      detLookup ops cts al free det ign
          ((free.get ⟨j, hj⟩).1.1, (free.get ⟨j, hj⟩).1.2,
            rcMaxIds cts (free.get ⟨j, hj⟩).1 + 1 +
              (free.take j).countP
                (fun x => decide (x.1 = (free.get ⟨j, hj⟩).1)), 0) =
        Except.ok (some (free.get ⟨j, hj⟩).2)) := by
  obtain ⟨rel2, hok, hrun⟩ :=
    reliable_contours_run ops cts al free det ign h1
  constructor
  · intro k0 hk0
    have hle : k0.2.2.1 ≤ rcMaxIds cts (k0.1, k0.2.1) := by
      have := rcMaxIds_ge cts (pfx3 k0) (hdet k0 hk0)
      exact this
    have hfr := freeLoop_det_frame free ⟨rcMaxIds cts, [], det⟩ k0 hle
    rw [detLookup, hrun]
    simp only [Except.map]
    rw [hfr]
  · intro j hj
    have hK := (freeLoop_writes free ⟨rcMaxIds cts, [], det⟩ j hj).2
    rw [detLookup, hrun]
    simp only [Except.map]
    rw [hK]

/-- Witness for C10: the pre-existing entry `regions/TEXT/0/0` is
unchanged and the freed line is inserted at `regions/ILLUSTRATION/1/0`. -/
theorem c10_witness :
    (∀ k ∈ dkeys c10wAl, pfx3 k ∈ dkeys c10wCts) ∧
    (∀ k ∈ dkeys c10wAl, pfx3 k ∈ dkeys c10wCts) ∧
    detLookup unitOps c10wCts c10wAl c10wFree c10wAl none
      ("regions", "TEXT", 0, 0) =
      Except.ok (dget? c10wAl ("regions", "TEXT", 0, 0)) ∧
    detLookup unitOps c10wCts c10wAl c10wFree c10wAl none
      ("regions", "ILLUSTRATION", 1, 0) = Except.ok (some c10wLineFree) := by
  have h := c10_detected_lines_mutation unitOps c10wCts c10wAl c10wFree
    c10wAl none (by decide) (by decide)
  refine ⟨by decide, by decide, ?_, ?_⟩
  · exact h.1 ("regions", "TEXT", 0, 0) (by decide)
  · exact h.2 0 (by decide)

/-- C6 (amended): for a block path with kept lines, no freed lines and
a predicted contour, whenever the hull-intersection is of geometry type
Polygon (so the degenerate fallback does not fire), the block's output
geometry is exactly `hull ∩ contour` and — for any point semantics
under which `intersection` is a subset of its right operand — its
point set is contained in the block's original predicted contour. -/
theorem c6_block_contour_subset {G : Type} (ops : GeomOps G)
    (pts : G → Set (ℚ × ℚ))
    (hInter : ∀ a b, pts (ops.intersection a b) ⊆ pts b)
    (cts : List (RPath × G)) (al : List (LPath × Line G))
    (det : List (LPath × Line G)) (ign : Option (RPath → Bool))
    (h1 : ∀ k ∈ dkeys al, pfx3 k ∈ dkeys cts)
    (bp : RPath) (ls : List (Line G)) (c : G)
    (hg : dget? (rcGroup al) bp = some ls)
    (hig : ignCheck ign bp = true)
    (hc : dget? cts bp = some c)
    (hpoly : ops.geomType (ops.intersection
      (ops.convexHull (ops.union (ls.map Line.polygon))) c) = "Polygon") :
    relLookup ops cts al [] det ign bp =
      Except.ok (some (ops.intersection
        (ops.convexHull (ops.union (ls.map Line.polygon))) c)) ∧
    pts (ops.intersection
      (ops.convexHull (ops.union (ls.map Line.polygon))) c) ⊆ pts c := by
  obtain ⟨rel2, hok, hrun⟩ :=
    reliable_contours_run ops cts al [] det ign h1
  have hbv : blockGeom ops c ls = ops.intersection
      (ops.convexHull (ops.union (ls.map Line.polygon))) c := by
    simp [blockGeom, hpoly]
  have hval := rcBlockLoop_value ops cts ign (rcGroup al) _ bp ls c rel2
    (rcGroup_nodup al) (dget?_mem _ _ _ hg) hig hc hok
  rw [hbv] at hval
  have hcopy : dget? (rcCopy rel2 cts) bp = some (ops.intersection
      (ops.convexHull (ops.union (ls.map Line.polygon))) c) := by
    rw [rcCopy_frame cts rel2 bp (by rw [hval]; rfl)]
    exact hval
  constructor
  · rw [relLookup, hrun]
    simp only [Except.map]
    rw [hcopy]
  · exact hInter _ _

/-- C6, counterexample: with the U-shaped contour and two kept lines
(and no freed lines), the builder's output for the block is the
fallback hull `F`; the table's `union`/`convexHull`/`intersection`
steps used in the run are definitionally honest for the `pts6`
semantics; and the point `(3/2, 5/2)` lies in the output geometry but
not in the original predicted contour — the output is NOT a subset of
the contour. -/
theorem c6_counterexample :
    relLookup ops6 c6Cts c6Al [] c6Al none ("regions", "TEXT", 0) =
      Except.ok (some CG6.F) ∧
    pts6 (ops6.union [CG6.A, CG6.B]) = pts6 CG6.A ∪ pts6 CG6.B ∧
    pts6 (ops6.convexHull CG6.UU) = convexHull ℚ (pts6 CG6.UU) ∧
    pts6 (ops6.intersection CG6.H CG6.Csh) = pts6 CG6.H ∩ pts6 CG6.Csh ∧
    pts6 (ops6.convexHull CG6.I) = convexHull ℚ (pts6 CG6.I) ∧
    (((3 : ℚ)/2, (5 : ℚ)/2)) ∈ pts6 CG6.F ∧
    (((3 : ℚ)/2, (5 : ℚ)/2)) ∉ pts6 CG6.Csh := by
  refine ⟨rfl, rfl, rfl, rfl, rfl, ?_, ?_⟩
  · -- (3/2, 5/2) is the midpoint of (0, 5/2) ∈ hull ∩ C and (3, 5/2) ∈ hull ∩ C
    have hA : ((0 : ℚ), (5 : ℚ)/2) ∈ setA := by
      constructor
      · constructor <;> norm_num
      · constructor <;> norm_num
    have hB : ((3 : ℚ), (5 : ℚ)/2) ∈ setB := by
      constructor
      · constructor <;> norm_num
      · constructor <;> norm_num
    have hAC : ((0 : ℚ), (5 : ℚ)/2) ∈ setC := by
      apply Set.mem_union_left
      apply Set.mem_union_right
      constructor
      · constructor <;> norm_num
      · constructor <;> norm_num
    have hBC : ((3 : ℚ), (5 : ℚ)/2) ∈ setC := by
      apply Set.mem_union_right
      constructor
      · constructor <;> norm_num
      · constructor <;> norm_num
    have h1 : ((0 : ℚ), (5 : ℚ)/2) ∈ convexHull ℚ (setA ∪ setB) ∩ setC :=
      ⟨subset_convexHull ℚ _ (Set.mem_union_left _ hA), hAC⟩
    have h2 : ((3 : ℚ), (5 : ℚ)/2) ∈ convexHull ℚ (setA ∪ setB) ∩ setC :=
      ⟨subset_convexHull ℚ _ (Set.mem_union_right _ hB), hBC⟩
    have hmid := (convex_convexHull ℚ (convexHull ℚ (setA ∪ setB) ∩ setC))
      (subset_convexHull ℚ _ h1) (subset_convexHull ℚ _ h2)
      (by norm_num : (0 : ℚ) ≤ 1/2) (by norm_num : (0 : ℚ) ≤ 1/2)
      (by norm_num : (1 : ℚ)/2 + 1/2 = 1)
    have heq : ((1 : ℚ)/2) • (((0 : ℚ), (5 : ℚ)/2) : ℚ × ℚ) +
        ((1 : ℚ)/2) • (((3 : ℚ), (5 : ℚ)/2) : ℚ × ℚ) =
        (((3 : ℚ)/2, (5 : ℚ)/2) : ℚ × ℚ) := by
      rw [Prod.smul_mk, Prod.smul_mk, Prod.mk_add_mk]
      norm_num
    rw [heq] at hmid
    exact hmid
  · intro h
    rcases h with h1 | h2
    · rcases h1 with h1a | h1b
      · rcases h1a with ⟨_, hy⟩
        rcases hy with ⟨_, hy2⟩
        norm_num at hy2
      · rcases h1b with ⟨hx, _⟩
        rcases hx with ⟨_, hx2⟩
        norm_num at hx2
    · rcases h2 with ⟨hx, _⟩
      rcases hx with ⟨hx1, _⟩
      norm_num at hx1

/-- Witness for the amended C6 at a one-block instance with universal
point semantics. -/
theorem c6_witness :
    (∀ a b : Unit,
      (fun _ : Unit => (Set.univ : Set (ℚ × ℚ))) (unitOps.intersection a b) ⊆
        (fun _ : Unit => (Set.univ : Set (ℚ × ℚ))) b) ∧
    (∀ k ∈ dkeys c6wAl, pfx3 k ∈ dkeys c6wCts) ∧
    dget? (rcGroup c6wAl) ("regions", "TEXT", 5) = some [c6wLine] ∧
    relLookup unitOps c6wCts c6wAl [] c6wAl none ("regions", "TEXT", 5) =
      Except.ok (some ()) ∧
    (fun _ : Unit => (Set.univ : Set (ℚ × ℚ))) () ⊆
      (fun _ : Unit => (Set.univ : Set (ℚ × ℚ))) () := by
  have h := c6_block_contour_subset unitOps
    (fun _ : Unit => (Set.univ : Set (ℚ × ℚ)))
    (fun _ _ => Set.Subset.rfl) c6wCts c6wAl c6wAl none (by decide)
    ("regions", "TEXT", 5) [c6wLine] () rfl rfl rfl rfl
  exact ⟨fun _ _ => Set.Subset.rfl, by decide, rfl, h.1, h.2⟩

/-- Every entry of the freed-lines loop's reliable dict is inherited or
carries some freed line's own polygon. -/
theorem freeLoop_rel_mem {G : Type} (l : List ((String × String) × Line G)) :
    ∀ (st : RCState G) (p : RPath × G), p ∈ (freeLoop st l).rel →
    p ∈ st.rel ∨ ∃ fl ∈ l, p.2 = fl.2.polygon := by
  induction l with
  | nil => intro st p hp; exact Or.inl hp
  | cons a rest ih =>
    intro st p hp
    have hstep : freeLoop st (a :: rest) = freeLoop (freeStep st a) rest := rfl
    rw [hstep] at hp
    rcases ih (freeStep st a) p hp with h1 | h2
    · rcases mem_dset _ _ _ _ h1 with h3 | h4
      · exact Or.inl h3
      · exact Or.inr ⟨a, List.mem_cons_self a rest, by rw [h4]⟩
    · obtain ⟨fl, hfl, he⟩ := h2
      exact Or.inr ⟨fl, List.mem_cons_of_mem _ hfl, he⟩

/-- Every entry of the block loop's result is inherited or carries a
`blockGeom` value of some block. -/
theorem rcBlockLoop_mem {G : Type} (ops : GeomOps G)
    (cts : List (RPath × G)) (ign : Option (RPath → Bool)) :
    ∀ (groups : List (RPath × List (Line G))) (rel res : List (RPath × G)),
    rcBlockLoop ops cts ign rel groups = Except.ok res →
    ∀ p ∈ res, p ∈ rel ∨
      ∃ b ∈ groups, ∃ c, dget? cts b.1 = some c ∧ p.2 = blockGeom ops c b.2 := by
  intro groups
  induction groups with
  | nil =>
    intro rel res hok p hp
    simp only [rcBlockLoop] at hok
    rw [← Except.ok.inj hok] at hp
    exact Or.inl hp
  | cons b rest ih =>
    intro rel res hok p hp
    simp only [rcBlockLoop] at hok
    by_cases hig : ignCheck ign b.1 = true
    · rw [if_pos hig] at hok
      cases hc : dget? cts b.1 with
      | none => rw [hc] at hok; exact absurd hok (by simp)
      | some c =>
        rw [hc] at hok
        rcases ih _ res hok p hp with h1 | h2
        · rcases mem_dset _ _ _ _ h1 with h3 | h4
          · exact Or.inl h3
          · exact Or.inr ⟨b, List.mem_cons_self b rest, c, hc, by rw [h4]⟩
        · obtain ⟨b2, hb2, c2, hc2, he⟩ := h2
          exact Or.inr ⟨b2, List.mem_cons_of_mem _ hb2, c2, hc2, he⟩
    · rw [if_neg hig] at hok
      rcases ih _ res hok p hp with h1 | h2
      · exact Or.inl h1
      · obtain ⟨b2, hb2, c2, hc2, he⟩ := h2
        exact Or.inr ⟨b2, List.mem_cons_of_mem _ hb2, c2, hc2, he⟩

/-- Every entry of the copy-through pass is inherited or a predicted
contour entry. -/
theorem rcCopy_mem {G : Type} :
    ∀ (cts rel : List (RPath × G)) (p : RPath × G), p ∈ rcCopy rel cts →
    p ∈ rel ∨ p ∈ cts := by
  intro cts
  induction cts with
  | nil => intro rel p hp; exact Or.inl hp
  | cons kv rest ih =>
    intro rel p hp
    have hstep : rcCopy rel (kv :: rest) =
        rcCopy (if (dget? rel kv.1).isSome then rel else dset rel kv.1 kv.2)
          rest := rfl
    rw [hstep] at hp
    by_cases hh : (dget? rel kv.1).isSome
    · rw [if_pos hh] at hp
      rcases ih rel p hp with h1 | h2
      · exact Or.inl h1
      · exact Or.inr (List.mem_cons_of_mem _ h2)
    · rw [if_neg hh] at hp
      rcases ih _ p hp with h1 | h2
      · rcases mem_dset _ _ _ _ h1 with h3 | h4
        · exact Or.inl h3
        · exact Or.inr (List.mem_cons.mpr (Or.inl h4))
      · exact Or.inr (List.mem_cons_of_mem _ h2)

theorem freeLoop_rel_nodup {G : Type}
    (l : List ((String × String) × Line G)) :
    ∀ (st : RCState G), (dkeys st.rel).Nodup →
    (dkeys (freeLoop st l).rel).Nodup := by
  induction l with
  | nil => intro st h; exact h
  | cons a rest ih =>
    intro st h
    exact ih (freeStep st a) (dkeys_dset_nodup _ _ _ h)

theorem rcBlockLoop_nodup {G : Type} (ops : GeomOps G)
    (cts : List (RPath × G)) (ign : Option (RPath → Bool)) :
    ∀ (groups : List (RPath × List (Line G))) (rel res : List (RPath × G)),
    rcBlockLoop ops cts ign rel groups = Except.ok res →
    (dkeys rel).Nodup → (dkeys res).Nodup := by
  intro groups
  induction groups with
  | nil =>
    intro rel res hok h
    simp only [rcBlockLoop] at hok
    rw [← Except.ok.inj hok]
    exact h
  | cons b rest ih =>
    intro rel res hok h
    simp only [rcBlockLoop] at hok
    by_cases hig : ignCheck ign b.1 = true
    · rw [if_pos hig] at hok
      cases hc : dget? cts b.1 with
      | none => rw [hc] at hok; exact absurd hok (by simp)
      | some c =>
        rw [hc] at hok
        exact ih _ res hok (dkeys_dset_nodup _ _ _ h)
    · rw [if_neg hig] at hok
      exact ih _ res hok h

theorem rcCopy_nodup {G : Type} :
    ∀ (cts rel : List (RPath × G)), (dkeys rel).Nodup →
    (dkeys (rcCopy rel cts)).Nodup := by
  intro cts
  induction cts with
  | nil => intro rel h; exact h
  | cons kv rest ih =>
    intro rel h
    have hstep : rcCopy rel (kv :: rest) =
        rcCopy (if (dget? rel kv.1).isSome then rel else dset rel kv.1 kv.2)
          rest := rfl
    rw [hstep]
    by_cases hh : (dget? rel kv.1).isSome
    · rw [if_pos hh]; exact ih rel h
    · rw [if_neg hh]; exact ih _ (dkeys_dset_nodup _ _ _ h)

/-- In a dict with nodup keys, two entries with the same key coincide. -/
theorem entry_unique {K V : Type} [DecidableEq K]
    (d : List (K × V)) (hnd : (dkeys d).Nodup) (p q : K × V)
    (hp : p ∈ d) (hq : q ∈ d) (he : p.1 = q.1) : p = q := by
  induction d with
  | nil => simp at hp
  | cons kv rest ih =>
    have hnd2 : (dkeys rest).Nodup := (List.nodup_cons.mp hnd).2
    have hk : kv.1 ∉ dkeys rest := (List.nodup_cons.mp hnd).1
    rcases List.mem_cons.mp hp with hp1 | hp2
    · rcases List.mem_cons.mp hq with hq1 | hq2
      · rw [hp1, hq1]
      · exfalso
        apply hk
        have h2 : kv.1 = q.1 := by rw [← hp1]; exact he
        rw [h2]
        exact List.mem_map_of_mem Prod.fst hq2
    · rcases List.mem_cons.mp hq with hq1 | hq2
      · exfalso
        apply hk
        rw [hq1] at he
        rw [← he]
        exact List.mem_map_of_mem Prod.fst hp2
      · exact ih hnd2 hp2 hq2

/-- The writing loop in closed form: it emits every entry, in order,
and logs exactly the non-Polygon non-empty entries. -/
theorem write_contours_eq {G : Type} (ops : GeomOps G)
    (rel : List (RPath × G)) :
    write_contours ops rel =
      ((rel.filter (fun kv => decide (ops.geomType kv.2 ≠ "Polygon" ∧
        ops.isEmpty kv.2 = false))).map (fun kv => (kv.1, ops.geomType kv.2)),
       rel) := by
  have h : ∀ (acc : List (RPath × String) × List (RPath × G)),
      rel.foldl
        (fun acc kv =>
          (if ops.geomType kv.2 ≠ "Polygon" ∧ ops.isEmpty kv.2 = false then
            acc.1 ++ [(kv.1, ops.geomType kv.2)]
          else acc.1, acc.2 ++ [kv])) acc =
      (acc.1 ++ (rel.filter (fun kv => decide (ops.geomType kv.2 ≠ "Polygon" ∧
        ops.isEmpty kv.2 = false))).map (fun kv => (kv.1, ops.geomType kv.2)),
       acc.2 ++ rel) := by
    induction rel with
    | nil => intro acc; simp
    | cons kv rest ih =>
      intro acc
      rw [List.foldl_cons, ih, List.filter_cons]
      by_cases hb : ops.geomType kv.2 ≠ "Polygon" ∧ ops.isEmpty kv.2 = false
      · simp [hb]
      · simp [hb]
  rw [write_contours, h ([], [])]
  simp

/-- C2 (amended): when every input contour and every freed line's
polygon has geometry type Polygon, every geometry in the builder's
output is either of type Polygon or is the convex-hull fallback of a
non-Polygon hull-contour intersection (which may itself remain
non-Polygon, e.g. a LineString); and the writing loop emits every
entry while logging (never raising) exactly the entries that are
neither of type Polygon nor empty. -/
theorem c2_output_polygon_or_logged_fallback {G : Type} (ops : GeomOps G)
    (cts : List (RPath × G)) (al : List (LPath × Line G))
    (free : List ((String × String) × Line G)) (det : List (LPath × Line G))
    (ign : Option (RPath → Bool))
    (hc : ∀ kv ∈ cts, ops.geomType kv.2 = "Polygon")
    (hf : ∀ fl ∈ free, ops.geomType fl.2.polygon = "Polygon")
    (rel out2 : List _)
    (hrun : reliable_contours ops cts al free det ign =
      Except.ok (rel, out2)) :
    (∀ p ∈ rel, ops.geomType p.2 = "Polygon" ∨
      ∃ g, ops.geomType g ≠ "Polygon" ∧ p.2 = ops.convexHull g) ∧
    (write_contours ops rel).2 = rel ∧
    (∀ p ∈ rel, ((p.1, ops.geomType p.2) ∈ (write_contours ops rel).1 ↔
      (ops.geomType p.2 ≠ "Polygon" ∧ ops.isEmpty p.2 = false))) := by
  rw [reliable_contours] at hrun
  cases hb : rcBlockLoop ops cts ign
      (freeLoop ⟨rcMaxIds cts, [], det⟩ free).rel (rcGroup al) with
  | error e => rw [hb] at hrun; exact absurd hrun (by simp)
  | ok rel2 =>
    rw [hb] at hrun
    have hpair := Except.ok.inj hrun
    have hrel : rel = rcCopy rel2 cts := (Prod.mk.injEq _ _ _ _ ▸ hpair).1.symm
    have hmem : ∀ p ∈ rel, ops.geomType p.2 = "Polygon" ∨
        ∃ g, ops.geomType g ≠ "Polygon" ∧ p.2 = ops.convexHull g := by
      intro p hp
      rw [hrel] at hp
      rcases rcCopy_mem cts rel2 p hp with h1 | h2
      · rcases rcBlockLoop_mem ops cts ign (rcGroup al) _ rel2 hb p h1
          with h3 | h4
        · rcases freeLoop_rel_mem free _ p h3 with h5 | h6
          · simp at h5
          · obtain ⟨fl, hfl, he⟩ := h6
            exact Or.inl (he ▸ hf fl hfl)
        · obtain ⟨b, _, c, _, he⟩ := h4
          rw [blockGeom] at he
          by_cases hgt : ops.geomType (ops.intersection
              (ops.convexHull (ops.union (b.2.map Line.polygon))) c) ≠
              "Polygon"
          · rw [if_pos hgt] at he
            exact Or.inr ⟨_, hgt, he⟩
          · rw [if_neg hgt] at he
            rw [he]
            exact Or.inl (not_not.mp hgt)
      · exact Or.inl (hc p h2)
    have hnd : (dkeys rel).Nodup := by
      rw [hrel]
      apply rcCopy_nodup
      apply rcBlockLoop_nodup ops cts ign (rcGroup al) _ rel2 hb
      apply freeLoop_rel_nodup
      exact List.nodup_nil
    refine ⟨hmem, by rw [write_contours_eq], ?_⟩
    intro p hp
    rw [write_contours_eq]
    constructor
    · intro hlog
      obtain ⟨q, hq, he⟩ := List.mem_map.mp hlog
      have hq2 := List.mem_filter.mp hq
      have hkeq : q.1 = p.1 := by
        have h2 := he
        rw [Prod.mk.injEq] at h2
        exact h2.1
      have hqp : q = p := entry_unique rel hnd q p hq2.1 hp hkeq
      rw [hqp] at hq2
      exact of_decide_eq_true hq2.2
    · intro hbad
      apply List.mem_map.mpr
      refine ⟨p, List.mem_filter.mpr ⟨hp, decide_eq_true hbad⟩, rfl⟩

theorem box_convex (a b c d : ℚ) : Convex ℚ (box a b c d) :=
  (convex_Icc a b).prod (convex_Icc c d)

/-- C2, counterexample: all inputs are of geometry type Polygon, yet
the builder emits a non-empty LineString for the block whose kept
line's polygon meets the contour only along an edge.  The
`union`/`convexHull`/`intersection` table entries used by the run are
honest for the `pts2` semantics (the hull entries because the sets are
convex), and the intersection is the degenerate zero-width segment
`x = 1, 0 ≤ y ≤ 1`. -/
theorem c2_counterexample :
    (∀ kv ∈ c2Cts, ops2.geomType kv.2 = "Polygon") ∧
    ops2.geomType c2Line.polygon = "Polygon" ∧
    relLookup ops2 c2Cts c2Al [] c2Al none ("regions", "TEXT", 0) =
      Except.ok (some CG2.E) ∧
    ops2.geomType CG2.E = "LineString" ∧
    ops2.isEmpty CG2.E = false ∧
    pts2 (ops2.intersection CG2.P CG2.S) = pts2 CG2.P ∩ pts2 CG2.S ∧
    pts2 (ops2.convexHull CG2.UP) = convexHull ℚ (pts2 CG2.UP) ∧
    pts2 (ops2.convexHull CG2.E) = convexHull ℚ (pts2 CG2.E) ∧
    pts2 CG2.E = {q : ℚ × ℚ | q.1 = 1 ∧ 0 ≤ q.2 ∧ q.2 ≤ 1} := by
  refine ⟨by decide, rfl, rfl, rfl, rfl, rfl, ?_, ?_, ?_⟩
  · exact ((box_convex 1 2 0 1).convexHull_eq).symm
  · exact (((box_convex 1 2 0 1).inter (box_convex 0 1 0 1)).convexHull_eq).symm
  · apply Set.ext
    intro q
    constructor
    · intro hq
      obtain ⟨⟨⟨h1, h2⟩, _⟩, ⟨⟨h3, h4⟩, ⟨h5, h6⟩⟩⟩ := hq
      exact ⟨le_antisymm h4 h1, h5, h6⟩
    · intro hq
      obtain ⟨h1, h2, h3⟩ := hq
      exact ⟨⟨⟨le_of_eq h1.symm, by rw [h1]; norm_num⟩, h2, h3⟩,
        ⟨⟨by rw [h1]; norm_num, le_of_eq h1⟩, h2, h3⟩⟩

/-- Witness for the amended C2 at a concrete run with one kept and one
freed line. -/
theorem c2_witness :
    (∀ kv ∈ c2wCts, unitOps.geomType kv.2 = "Polygon") ∧
    (∀ fl ∈ c2wFree, unitOps.geomType fl.2.polygon = "Polygon") ∧
    reliable_contours unitOps c2wCts c2wAl c2wFree c2wAl none =
      Except.ok (c2wRel, c2wDet) ∧
    (∀ p ∈ c2wRel, unitOps.geomType p.2 = "Polygon" ∨
      ∃ g, unitOps.geomType g ≠ "Polygon" ∧ p.2 = unitOps.convexHull g) ∧
    (write_contours unitOps c2wRel).2 = c2wRel ∧
    (∀ p ∈ c2wRel,
      ((p.1, unitOps.geomType p.2) ∈ (write_contours unitOps c2wRel).1 ↔
        (unitOps.geomType p.2 ≠ "Polygon" ∧ unitOps.isEmpty p.2 = false))) := by
  have h := c2_output_polygon_or_logged_fallback unitOps c2wCts c2wAl
    c2wFree c2wAl none (by decide) (by decide) c2wRel c2wDet rfl
  exact ⟨by decide, by decide, rfl, h.1, h.2.1, h.2.2⟩

theorem zip_append_irrel {α β : Type} :
    ∀ (l2 : List β) (l1 : List α) (x : α), l2.length ≤ l1.length →
    (l1 ++ [x]).zip l2 = l1.zip l2 := by
  intro l2
  induction l2 with
  | nil => intro l1 x _; simp
  | cons b bs ih =>
    intro l1 x hlen
    cases l1 with
    | nil => simp at hlen
    | cons a as =>
      simp only [List.cons_append, List.zip_cons_cons]
      rw [ih as x (by simpa using hlen)]

/-- The code's shifted-zip pair list is exactly the spec's range list. -/
theorem code_pairs_eq_specRanges (xs : List ℚ) :
    ((none :: (xs.map some ++ [none])).zip (xs.map some ++ [none]) :
      List (Option ℚ × Option ℚ)) = specRanges xs := by
  rw [specRanges]
  cases h : xs.map some with
  | nil => simp [h]
  | cons a A =>
    simp only [List.cons_append, List.zip_cons_cons]
    congr 1
    have : (a :: A) ++ [(none : Option ℚ)] = (a :: A) ++ [none] := rfl
    calc ((a :: A) ++ [(none : Option ℚ)]).zip (A ++ [(none : Option ℚ)])
        = (a :: A).zip (A ++ [none]) := by
          apply zip_append_irrel
          simp
      _ = (a :: A).zip (A ++ [none]) := rfl

/-- The spec range list has exactly N+1 entries. -/
theorem specRanges_length (xs : List ℚ) :
    (specRanges xs).length = xs.length + 1 := by
  rw [specRanges]
  rw [List.length_zip]
  simp

theorem column_path_ok_iff (path : RWPath) (col : ℕ) (hcol : 1 ≤ col) :
    (∃ cp, column_path path col = Except.ok cp) ↔ validTablePath path := by
  have hnc : ¬ col < 1 := by omega
  rcases path with _ | ⟨p, path2⟩
  · constructor
    · rintro ⟨cp, hcp⟩
      simp only [column_path, if_neg hnc] at hcp
      exact absurd hcp (by simp)
    · rintro ⟨hlen, _, _⟩
      simp at hlen
  rcases path2 with _ | ⟨l, path3⟩
  · constructor
    · rintro ⟨cp, hcp⟩
      simp only [column_path, if_neg hnc] at hcp
      exact absurd hcp (by simp)
    · rintro ⟨hlen, _, _⟩
      simp at hlen
  rcases path3 with _ | ⟨x2, rest⟩
  · constructor
    · rintro ⟨cp, hcp⟩
      simp only [column_path, if_neg hnc] at hcp
      exact absurd hcp (by simp)
    · rintro ⟨hlen, _, _⟩
      simp at hlen
  have hx2 : (p :: l :: x2 :: rest).getD 2 "" = x2 := rfl
  constructor
  · rintro ⟨cp, hcp⟩
    simp only [column_path, if_neg hnc] at hcp
    rcases hsp : pySplit x2 dotChar with
      _ | ⟨f1, _ | ⟨f2, _ | ⟨f3, _ | ⟨f4, _ | ⟨f5, t5⟩⟩⟩⟩⟩
    · rw [hsp] at hcp
      exact absurd hcp (by simp)
    · rw [hsp] at hcp
      exact absurd hcp (by simp)
    · rw [hsp] at hcp
      exact absurd hcp (by simp)
    · rw [hsp] at hcp
      exact absurd hcp (by simp)
    · cases hn : pyToNat (lastStr (p :: l :: x2 :: rest)) with
      | none =>
        rw [hsp, hn] at hcp
        exact absurd hcp (by simp)
      | some n =>
        refine ⟨by simp, ?_, by rw [hn]; rfl⟩
        rw [hx2, hsp]
        rfl
    · rw [hsp] at hcp
      exact absurd hcp (by simp)
  · rintro ⟨hlen, h4, hnum⟩
    rw [hx2] at h4
    obtain ⟨n, hn⟩ := Option.isSome_iff_exists.mp hnum
    simp only [column_path, if_neg hnc]
    rcases hsp : pySplit x2 dotChar with
      _ | ⟨f1, _ | ⟨f2, _ | ⟨f3, _ | ⟨f4, _ | ⟨f5, t5⟩⟩⟩⟩⟩
    · rw [hsp] at h4
      simp at h4
    · rw [hsp] at h4
      simp at h4
    · rw [hsp] at h4
      simp at h4
    · rw [hsp] at h4
      simp at h4
    · rw [hn]
      exact ⟨_, rfl⟩
    · rw [hsp] at h4
      simp at h4

/-- The enumerate loop over the zipped column ranges: when the column
path construction succeeds, it emits one part per range pair, carrying
the range and the unchanged line. -/
theorem columnLoop_ok {L : Type} (path : RWPath) (line : L)
    (hcp : ∀ col, 1 ≤ col → ∃ cp, column_path path col = Except.ok cp) :
    ∀ (prs : List (Option ℚ × Option ℚ)) (i : ℕ),
    ∃ ps, columnLoop path line i prs = Except.ok ps ∧
      ps.length = prs.length ∧
      ps.map (fun pt => pt.2.2) = prs.map some ∧
      (∀ pt ∈ ps, pt.2.1 = line) := by
  intro prs
  induction prs with
  | nil => intro i; exact ⟨[], rfl, rfl, rfl, by simp⟩
  | cons pr rest ih =>
    intro i
    obtain ⟨cp, hcp1⟩ := hcp (1 + i) (by omega)
    obtain ⟨ps, hps, hlen, hmap, hline⟩ := ih (i + 1)
    refine ⟨(cp, line, some pr) :: ps, ?_, by simp [hlen], by simp [hmap],
      ?_⟩
    · simp only [columnLoop, hcp1, hps]
    · intro pt hpt
      rcases List.mem_cons.mp hpt with h1 | h2
      · rw [h1]
      · exact hline pt h2

theorem mapM_perLine_ok {L : Type} (cols : List (RWPath × List ℚ)) :
    ∀ (lines : List (RWPath × L)),
    (∀ pl ∈ lines, ∃ ps, perLine cols pl = Except.ok ps) →
    lines.mapM (perLine cols) = Except.ok (lines.map (partsFor cols)) := by
  intro lines
  induction lines with
  | nil => intro _; rfl
  | cons pl rest ih =>
    intro h
    obtain ⟨ps, hps⟩ := h pl (List.mem_cons_self pl rest)
    have hpf : partsFor cols pl = ps := by
      rw [partsFor, hps]
      rfl
    rw [List.mapM_cons, hps,
      ih (fun q hq => h q (List.mem_cons_of_mem _ hq)),
      List.map_cons, hpf]
    rfl

/-- Keys of the rewriter's columns dict come from splitting the raw
table keys. -/
theorem mkColumns_keys (tables : List (String × List ℚ)) :
    ∀ (d : List (RWPath × List ℚ)) (k : RWPath),
    k ∈ dkeys (tables.foldl
      (fun d kv => dset d (pySplit kv.1 slashChar) kv.2) d) →
    k ∈ dkeys d ∨ ∃ kv ∈ tables, pySplit kv.1 slashChar = k := by
  induction tables with
  | nil => intro d k h; exact Or.inl h
  | cons kv rest ih =>
    intro d k h
    rcases ih _ k h with h1 | h2
    · rw [dkeys_dset] at h1
      by_cases hm : pySplit kv.1 slashChar ∈ dkeys d
      · simp only [if_pos hm] at h1
        exact Or.inl h1
      · simp only [if_neg hm, List.mem_append, List.mem_singleton] at h1
        rcases h1 with h3 | h4
        · exact Or.inl h3
        · exact Or.inr ⟨kv, List.mem_cons_self kv rest, h4.symm⟩
    · obtain ⟨kv2, hkv2, he⟩ := h2
      exact Or.inr ⟨kv2, List.mem_cons_of_mem _ hkv2, he⟩

/-- A line that matches a columns entry has a path of length at least
three (given well-formed three-field table keys). -/
theorem matching_path_long {L : Type} (tables : List (String × List ℚ))
    (hkeys : ∀ kv ∈ tables, (pySplit kv.1 slashChar).length = 3)
    (pl : RWPath × L)
    (hm : (dget? (mkColumns tables) (pl.1.take 3)).isSome) :
    3 ≤ pl.1.length := by
  obtain ⟨xs, hxs⟩ := Option.isSome_iff_exists.mp hm
  have hk : pl.1.take 3 ∈ dkeys (mkColumns tables) :=
    List.mem_map_of_mem Prod.fst (dget?_mem _ _ _ hxs)
  rw [mkColumns] at hk
  rcases mkColumns_keys tables [] (pl.1.take 3) hk with h0 | ⟨kv, hkv, he⟩
  · simp [dkeys] at h0
  · have h3 : (pl.1.take 3).length = 3 := by rw [← he]; exact hkeys kv hkv
    rw [List.length_take] at h3
    omega

/-- C7: for every line whose block-prefix path matches a TableColumns
entry with N registered boundaries (and whose table path is valid),
the rewriter emits exactly N+1 parts for it, whose column ranges are
the consecutive boundary pairs with None on the outer edges, with the
line itself unchanged in every part; every line with no matching entry
is emitted exactly once, unchanged, with column range None; and the
whole output is the in-order concatenation of these per-line parts. -/
theorem c7_rewriter_column_parts {L : Type} (tables : List (String × List ℚ))
    (lines : List (RWPath × L))
    (hval : ∀ pl ∈ lines, (dget? (mkColumns tables) (pl.1.take 3)).isSome →
      (3 ≤ pl.1.length ∧
       (pySplit (pl.1.getD 2 "") dotChar).length = 4 ∧
       (pyToNat (lastStr pl.1)).isSome)) :
    rewriter_call tables lines =
      Except.ok ((lines.map (partsFor (mkColumns tables))).flatten) ∧
    (∀ pl ∈ lines, dget? (mkColumns tables) (pl.1.take 3) = none →
      partsFor (mkColumns tables) pl = [(pl.1, pl.2, none)]) ∧
    (∀ pl ∈ lines, ∀ xs, dget? (mkColumns tables) (pl.1.take 3) = some xs →
      (partsFor (mkColumns tables) pl).length = xs.length + 1 ∧
      (partsFor (mkColumns tables) pl).map (fun pt => pt.2.2) =
        (specRanges xs).map some ∧
      (∀ pt ∈ partsFor (mkColumns tables) pl, pt.2.1 = pl.2)) := by
  have hok : ∀ pl ∈ lines, ∃ ps,
      perLine (mkColumns tables) pl = Except.ok ps := by
    intro pl hpl
    cases hx : dget? (mkColumns tables) (pl.1.take 3) with
    | none => exact ⟨[(pl.1, pl.2, none)], by simp [perLine, hx]⟩
    | some xs =>
      have hv := hval pl hpl (by rw [hx]; rfl)
      have hcp : ∀ col, 1 ≤ col →
          ∃ cp, column_path pl.1 col = Except.ok cp := by
        intro col hcol
        exact (column_path_ok_iff pl.1 col hcol).mpr hv
      obtain ⟨ps, hps, _, _, _⟩ := columnLoop_ok pl.1 pl.2 hcp
        (((none :: (xs.map some ++ [none])) :
          List (Option ℚ)).zip (xs.map some ++ [none])) 0
      refine ⟨ps, ?_⟩
      simp only [perLine, hx]
      exact hps
  refine ⟨?_, ?_, ?_⟩
  · rw [rewriter_call, mapM_perLine_ok (mkColumns tables) lines hok]
    rfl
  · intro pl _ hx
    rw [partsFor]
    simp only [perLine, hx]
    rfl
  · intro pl hpl xs hx
    have hv := hval pl hpl (by rw [hx]; rfl)
    have hcp : ∀ col, 1 ≤ col →
        ∃ cp, column_path pl.1 col = Except.ok cp := by
      intro col hcol
      exact (column_path_ok_iff pl.1 col hcol).mpr hv
    obtain ⟨ps, hps, hlen, hmap, hline⟩ := columnLoop_ok pl.1 pl.2 hcp
      (((none :: (xs.map some ++ [none])) :
        List (Option ℚ)).zip (xs.map some ++ [none])) 0
    have hpf : partsFor (mkColumns tables) pl = ps := by
      rw [partsFor]
      simp only [perLine, hx, List.tail_cons]
      rw [hps]
      rfl
    have hzip : (((none :: (xs.map some ++ [none])) :
        List (Option ℚ)).zip (xs.map some ++ [none])) = specRanges xs :=
      code_pairs_eq_specRanges xs
    refine ⟨?_, ?_, ?_⟩
    · rw [hpf, hlen, hzip, specRanges_length]
    · rw [hpf, hmap, hzip]
    · intro pt hpt
      rw [hpf] at hpt
      exact hline pt hpt

/-- Witness for C7: the spec's example — boundaries `[100, 300]` give
exactly 3 parts with ranges `(None,100)`, `(100,300)`, `(300,None)`;
the non-table line is emitted once, unchanged, with column `None`. -/
theorem c7_witness :
    (∀ pl ∈ c7wLines, (dget? (mkColumns c7wTables) (pl.1.take 3)).isSome →
      (3 ≤ pl.1.length ∧
       (pySplit (pl.1.getD 2 "") dotChar).length = 4 ∧
       (pyToNat (lastStr pl.1)).isSome)) ∧
    rewriter_call c7wTables c7wLines =
      Except.ok ((c7wLines.map (partsFor (mkColumns c7wTables))).flatten) ∧
    (partsFor (mkColumns c7wTables)
      (["regions", "TABULAR", "1.2.3.4", "0"], 7)).length = 3 ∧
    (partsFor (mkColumns c7wTables)
      (["regions", "TABULAR", "1.2.3.4", "0"], 7)).map (fun pt => pt.2.2) =
      [some ((none : Option ℚ), some (100 : ℚ)),
       some (some (100 : ℚ), some (300 : ℚ)),
       some (some (300 : ℚ), (none : Option ℚ))] ∧
    partsFor (mkColumns c7wTables) (["regions", "TEXT", "0", "1"], 8) =
      [(["regions", "TEXT", "0", "1"], 8, none)] := by
  have h := c7_rewriter_column_parts c7wTables c7wLines (by decide)
  refine ⟨by decide, h.1, ?_, ?_, ?_⟩
  · exact (h.2.2 (["regions", "TABULAR", "1.2.3.4", "0"], 7)
      (by decide) [100, 300] (by rfl)).1
  · exact ((h.2.2 (["regions", "TABULAR", "1.2.3.4", "0"], 7)
      (by decide) [100, 300] (by rfl)).2.1).trans (by rfl)
  · exact h.2.1 (["regions", "TEXT", "0", "1"], 8) (by decide) (by rfl)

theorem mapM_error_iff {α β : Type} (f : α → Except String β) :
    ∀ (l : List α),
    (∃ e, l.mapM f = Except.error e) ↔ ∃ a ∈ l, ∃ e, f a = Except.error e := by
  intro l
  induction l with
  | nil =>
    constructor
    · rintro ⟨e, he⟩
      rw [List.mapM_nil] at he
      exact absurd he (by simp [pure, Except.pure])
    · rintro ⟨a, ha, _⟩
      simp at ha
  | cons a l ih =>
    rw [List.mapM_cons]
    constructor
    · rintro ⟨e, he⟩
      cases hfa : f a with
      | error e2 => exact ⟨a, List.mem_cons_self a l, e2, hfa⟩
      | ok b =>
        rw [hfa] at he
        have he2 : (l.mapM f >>= fun xs => pure (b :: xs)) =
            Except.error e := he
        cases hml : l.mapM f with
        | error e3 =>
          obtain ⟨a2, ha2, e4, h4⟩ := ih.mp ⟨e3, hml⟩
          exact ⟨a2, List.mem_cons_of_mem _ ha2, e4, h4⟩
        | ok xs =>
          rw [hml] at he2
          exact absurd (show Except.ok (b :: xs) = Except.error e from he2)
            (by simp)
    · rintro ⟨a2, ha2, e, hfe⟩
      rcases List.mem_cons.mp ha2 with h1 | h2
      · subst h1
        rw [hfe]
        exact ⟨e, rfl⟩
      · cases hfa : f a with
        | error e2 => exact ⟨e2, rfl⟩
        | ok b =>
          obtain ⟨e3, h3⟩ := ih.mpr ⟨a2, h2, e, hfe⟩
          rw [h3]
          exact ⟨e3, rfl⟩

/-- For a matching line with a numeric last component and a long-enough
path, the per-line body raises exactly when the table path component
does not split into four fields. -/
theorem perLine_error_iff {L : Type} (cols : List (RWPath × List ℚ))
    (pl : RWPath × L) (xs : List ℚ)
    (hx : dget? cols (pl.1.take 3) = some xs) (hlen : 3 ≤ pl.1.length)
    (hnum : (pyToNat (lastStr pl.1)).isSome) :
    (∃ e, perLine cols pl = Except.error e) ↔
      (pySplit (pl.1.getD 2 "") dotChar).length ≠ 4 := by
  have hpairs : ((none :: (xs.map some ++ [none])) :
      List (Option ℚ)).zip ((none :: (xs.map some ++ [none])) :
      List (Option ℚ)).tail = specRanges xs := by
    rw [List.tail_cons]
    exact code_pairs_eq_specRanges xs
  have hne : specRanges xs ≠ [] := by
    intro h
    have := specRanges_length xs
    rw [h] at this
    simp at this
  obtain ⟨pr, prs, hcons⟩ := List.exists_cons_of_ne_nil hne
  constructor
  · rintro ⟨e, he⟩
    intro h4
    have hv : validTablePath pl.1 := ⟨hlen, h4, hnum⟩
    have hcp : ∀ col, 1 ≤ col → ∃ cp, column_path pl.1 col = Except.ok cp :=
      fun col hcol => (column_path_ok_iff pl.1 col hcol).mpr hv
    obtain ⟨ps, hps, _, _, _⟩ := columnLoop_ok pl.1 pl.2 hcp
      (((none :: (xs.map some ++ [none])) : List (Option ℚ)).zip
        ((none :: (xs.map some ++ [none])) : List (Option ℚ)).tail) 0
    simp only [perLine, hx] at he
    rw [hps] at he
    exact absurd he (by simp)
  · intro h4
    cases hcp : column_path pl.1 1 with
    | ok cp =>
      have hv := (column_path_ok_iff pl.1 1 (Nat.le_refl 1)).mp ⟨cp, hcp⟩
      exact absurd hv.2.1 h4
    | error e =>
      refine ⟨e, ?_⟩
      simp only [perLine, hx]
      rw [hpairs, hcons]
      simp only [columnLoop]
      rw [show (1 + 0 : ℕ) = 1 from rfl, hcp]

/-- C8: (given well-formed three-field table keys and numeric line ids,
as produced by the pipeline) the line rewriter raises a validation
error if and only if some line whose block prefix matches a
TableColumns entry has a table-block path component that does not
consist of exactly four dot-separated fields; the error aborts
rewriting — nothing is emitted. -/
theorem c8_malformed_table_path_iff {L : Type}
    (tables : List (String × List ℚ)) (lines : List (RWPath × L))
    (hkeys : ∀ kv ∈ tables, (pySplit kv.1 slashChar).length = 3)
    (hnum : ∀ pl ∈ lines, (dget? (mkColumns tables) (pl.1.take 3)).isSome →
      (pyToNat (lastStr pl.1)).isSome) :
    (∃ e, rewriter_call tables lines = Except.error e) ↔
    (∃ pl ∈ lines, (dget? (mkColumns tables) (pl.1.take 3)).isSome ∧
      (pySplit (pl.1.getD 2 "") dotChar).length ≠ 4) := by
  have hcall : (∃ e, rewriter_call tables lines = Except.error e) ↔
      (∃ e, lines.mapM (perLine (mkColumns tables)) = Except.error e) := by
    rw [rewriter_call]
    cases hm : lines.mapM (perLine (mkColumns tables)) with
    | error e => simp [Except.map]
    | ok res => simp [Except.map]
  rw [hcall, mapM_error_iff]
  constructor
  · rintro ⟨pl, hpl, e, he⟩
    cases hx : dget? (mkColumns tables) (pl.1.take 3) with
    | none =>
      rw [perLine, hx] at he
      exact absurd he (by simp)
    | some xs =>
      have hsome : (dget? (mkColumns tables) (pl.1.take 3)).isSome := by
        rw [hx]; rfl
      refine ⟨pl, hpl, hsome, ?_⟩
      exact (perLine_error_iff (mkColumns tables) pl xs hx
        (matching_path_long tables hkeys pl hsome)
        (hnum pl hpl hsome)).mp ⟨e, he⟩
  · rintro ⟨pl, hpl, hsome, h4⟩
    obtain ⟨xs, hx⟩ := Option.isSome_iff_exists.mp hsome
    obtain ⟨e, he⟩ := (perLine_error_iff (mkColumns tables) pl xs hx
      (matching_path_long tables hkeys pl hsome)
      (hnum pl hpl hsome)).mpr h4
    exact ⟨pl, hpl, e, he⟩

/-- Witness for C8: the spec's malformed example — a matching table
path component with three dot-separated fields raises the validation
error and rewriting aborts with no emitted parts. -/
theorem c8_witness :
    (∀ kv ∈ c8wTables, (pySplit kv.1 slashChar).length = 3) ∧
    (∀ pl ∈ c8wLines, (dget? (mkColumns c8wTables) (pl.1.take 3)).isSome →
      (pyToNat (lastStr pl.1)).isSome) ∧
    rewriter_call c8wTables c8wLines =
      Except.error "RuntimeError: not a valid table path" := by
  have h := (c8_malformed_table_path_iff c8wTables c8wLines (by decide)
    (by decide)).mpr
    ⟨(["regions", "TABULAR", "0.1.0", "2"], 5), by decide, by decide,
      by decide⟩
  obtain ⟨e, _⟩ := h
  exact ⟨by decide, by decide, by rfl⟩

end Origami

